import Mathlib

/-!
Verification of the QuickPYQquizOCR text-normalization pipeline.

The Python sources (helpers.py, ai_handler.py, ai_handler_3.py, bi_handler.py)
are shallowly embedded here.  Text is modelled as a list of characters
(type Str); Python string slicing s[:n] becomes List.take n, s[n:] becomes
List.drop n, len becomes List.length, str.strip() becomes pyStrip and so on.
Regular expressions used by the sources are small and are translated into
explicit scanning functions; the character classes backslash-d and
backslash-s of the Python re module are modelled by their ASCII parts
(Char.isDigit and isPyWs), which is exact for all inputs the theorems and
witnesses below use.
-/

/-- Text is modelled as a list of characters. -/
abbrev Str := List Char

/-- Python whitespace set used by str.strip and str.split: space, tab,
newline, carriage return, vertical tab, form feed. -/
def isPyWs (c : Char) : Bool :=
  c = ' ' || c = '\t' || c = '\n' || c = '\r' || c = '\x0B' || c = '\x0C'

/-- Python str.lstrip with default argument. -/
def pyLStrip (s : Str) : Str := s.dropWhile isPyWs

/-- Python str.rstrip with default argument. -/
def pyRStrip (s : Str) : Str := (s.reverse.dropWhile isPyWs).reverse

/-- Python str.strip with default argument. -/
def pyStrip (s : Str) : Str := pyRStrip (pyLStrip s)

/-- The sentence delimiters of re.split with pattern class dot, bang,
question mark, used by optimize_for_poll. -/
def isPunctChar (c : Char) : Bool := c = '.' || c = '!' || c = '?'

/-- Split a character list at every character satisfying p, keeping empty
pieces, exactly like Python str.split with a one-character separator
(n separators give n+1 pieces). -/
def splitOnP (p : Char → Bool) : Str → List Str
  | [] => [[]]
  | c :: rest =>
    if p c then [] :: splitOnP p rest
    else
      match splitOnP p rest with
      | [] => [[c]]
      | h :: t => (c :: h) :: t

/-- Python text.split of a newline character. -/
def splitLines (s : Str) : List Str := splitOnP (fun c => c = '\n') s

/-- Python newline.join. -/
def joinLines (ls : List Str) : Str := List.intercalate ['\n'] ls

/-- Python str.split() with no argument: maximal runs of non-whitespace. -/
def pyWords (s : Str) : List Str := (splitOnP isPyWs s).filter (fun w => w ≠ [])

/-- Python space.join. -/
def joinSpace (ws : List Str) : Str := List.intercalate [' '] ws

/-- The greedy word-accumulation loop shared by optimize_for_poll branches:
starting from an already-consumed length cur, keep whole words while
cur + len(word) + 1 stays within the budget, stopping at the first word
that does not fit. -/
def greedyWords (budget : Nat) : Nat → List Str → List Str
  | _, [] => []
  | cur, w :: ws =>
    if cur + w.length + 1 ≤ budget then w :: greedyWords budget (cur + w.length + 1) ws
    else []

/-- Match of the Python regex anchored digits-then-dot (re.match of
caret-backslash-d-plus-dot), deciding question lines. -/
def qnumMatch (s : Str) : Bool :=
  let ds := s.takeWhile Char.isDigit
  !ds.isEmpty &&
    (match s.drop ds.length with
     | c :: _ => c = '.'
     | _ => false)

/-- Match of the anchored digits, dot, whitespace pattern used by the
block splitters (lookahead of the re.split call). -/
def qnumSpMatch (s : Str) : Bool :=
  let ds := s.takeWhile Char.isDigit
  !ds.isEmpty &&
    (match s.drop ds.length with
     | c :: w :: _ => c = '.' && isPyWs w
     | _ => false)

/-- Match of the anchored lowercase option pattern: a letter a to d
followed by a closing parenthesis. -/
def optMatch (s : Str) : Bool :=
  match s with
  | a :: b :: _ => (a = 'a' || a = 'b' || a = 'c' || a = 'd') && b = ')'
  | _ => false

/-- Match of the anchored uppercase option pattern: an opening parenthesis,
a letter A to D, a closing parenthesis. -/
def uoptMatch (s : Str) : Bool :=
  match s with
  | '(' :: l :: ')' :: _ => l = 'A' || l = 'B' || l = 'C' || l = 'D'
  | _ => false

/-- Python str.startswith. -/
def pyStartsWith (pre s : Str) : Bool := pre.isPrefixOf s

/-- The explanation marker token. -/
def exTag : Str := ['E', 'x', ':']

/-- Python str.endswith with the tuple of the three terminal punctuation
characters. -/
def pyEndsWithPunct (s : Str) : Bool :=
  match s.getLast? with
  | some c => isPunctChar c
  | none => false

/-- Python str.endswith with a single dot. -/
def pyEndsWithDot (s : Str) : Bool :=
  match s.getLast? with
  | some c => c = '.'
  | none => false

theorem splitOnP_ne_nil (p : Char → Bool) (s : Str) : splitOnP p s ≠ [] := by
  induction s with
  | nil => simp [splitOnP]
  | cons c rest ih =>
    simp only [splitOnP]
    split
    · simp
    · cases h : splitOnP p rest with
      | nil => simp
      | cons a t => simp

theorem mem_splitOnP_no_delim (p : Char → Bool) (s : Str) :
    ∀ l ∈ splitOnP p s, ∀ c ∈ l, p c = false := by
  induction s with
  | nil =>
    intro l hl c hc
    simp [splitOnP] at hl
    subst hl
    simp at hc
  | cons a rest ih =>
    intro l hl c hc
    simp only [splitOnP] at hl
    by_cases hp : p a
    · simp [hp] at hl
      rcases hl with h | h
      · subst h; simp at hc
      · exact ih l h c hc
    · simp [hp] at hl
      rcases hhead : splitOnP p rest with _ | ⟨h0, t0⟩
      · exact absurd hhead (splitOnP_ne_nil p rest)
      · rw [hhead] at hl
        simp at hl
        rcases hl with h | h
        · subst h
          rcases List.mem_cons.mp hc with h | h
          · subst h
            simpa using hp
          · exact ih h0 (by rw [hhead]; exact List.mem_cons_self _ _) c h
        · exact ih l (by rw [hhead]; exact List.mem_cons_of_mem _ h) c hc

theorem mem_of_mem_splitOnP (p : Char → Bool) (s : Str) :
    ∀ l ∈ splitOnP p s, ∀ c ∈ l, c ∈ s := by
  induction s with
  | nil =>
    intro l hl c hc
    simp [splitOnP] at hl
    subst hl
    simp at hc
  | cons a rest ih =>
    intro l hl c hc
    simp only [splitOnP] at hl
    by_cases hp : p a
    · simp [hp] at hl
      rcases hl with h | h
      · subst h; simp at hc
      · exact List.mem_cons_of_mem _ (ih l h c hc)
    · simp [hp] at hl
      rcases hhead : splitOnP p rest with _ | ⟨h0, t0⟩
      · exact absurd hhead (splitOnP_ne_nil p rest)
      · rw [hhead] at hl
        simp at hl
        rcases hl with h | h
        · subst h
          rcases List.mem_cons.mp hc with h | h
          · subst h; exact List.mem_cons_self _ _
          · exact List.mem_cons_of_mem _
              (ih h0 (by rw [hhead]; exact List.mem_cons_self _ _) c h)
        · exact List.mem_cons_of_mem _
            (ih l (by rw [hhead]; exact List.mem_cons_of_mem _ h) c hc)

theorem splitOnP_no_delim_eq (p : Char → Bool) (l : Str)
    (hl : ∀ c ∈ l, p c = false) : splitOnP p l = [l] := by
  induction l with
  | nil => simp [splitOnP]
  | cons c cs ih =>
    have hc : p c = false := hl c (by simp)
    have ih2 := ih (fun c2 hc2 => hl c2 (List.mem_cons_of_mem _ hc2))
    simp [splitOnP, hc, ih2]

theorem splitOnP_append_delim (p : Char → Bool) (d : Char) (hd : p d = true)
    (l t : Str) (hl : ∀ c ∈ l, p c = false) :
    splitOnP p (l ++ d :: t) = l :: splitOnP p t := by
  induction l with
  | nil => simp [splitOnP, hd]
  | cons c cs ih =>
    have hc : p c = false := hl c (by simp)
    have ih2 := ih (fun c2 hc2 => hl c2 (List.mem_cons_of_mem _ hc2))
    simp only [List.cons_append, splitOnP, hc, Bool.false_eq_true, if_false]
    rw [show cs.append (d :: t) = cs ++ d :: t from rfl, ih2]

theorem splitOnP_intercalate (p : Char → Bool) (d : Char) (hd : p d = true) :
    ∀ ls : List Str, ls ≠ [] → (∀ l ∈ ls, ∀ c ∈ l, p c = false) →
    splitOnP p (List.intercalate [d] ls) = ls := by
  intro ls
  induction ls with
  | nil => intro h; exact absurd rfl h
  | cons l rest ih =>
    intro _ hfree
    cases rest with
    | nil =>
      have : List.intercalate [d] [l] = l := by
        simp [List.intercalate, List.intersperse]
      rw [this]
      exact splitOnP_no_delim_eq p l (hfree l (by simp))
    | cons l2 rest2 =>
      have step : List.intercalate [d] (l :: l2 :: rest2) =
          l ++ d :: List.intercalate [d] (l2 :: rest2) := by
        simp [List.intercalate, List.intersperse]
      rw [step, splitOnP_append_delim p d hd l _ (hfree l (by simp))]
      rw [ih (by simp) (fun l3 hl3 c hc => hfree l3 (List.mem_cons_of_mem _ hl3) c hc)]

theorem splitLines_joinLines (ls : List Str) (hne : ls ≠ [])
    (hfree : ∀ l ∈ ls, ∀ c ∈ l, (c = '\n') = False) :
    splitLines (joinLines ls) = ls := by
  apply splitOnP_intercalate (fun c => decide (c = '\n')) '\n' (by simp)
  · exact hne
  · intro l hl c hc
    simpa using hfree l hl c hc

theorem mem_splitLines_no_nl (s : Str) :
    ∀ l ∈ splitLines s, ∀ c ∈ l, (c = '\n') = False := by
  intro l hl c hc
  have := mem_splitOnP_no_delim (fun c => decide (c = '\n')) s l hl c hc
  simpa using this

theorem dropWhile_head_not (p : Char → Bool) :
    ∀ (s : Str) (c : Char) (t : Str), List.dropWhile p s = c :: t → p c = false := by
  intro s
  induction s with
  | nil => intro c t h; simp [List.dropWhile] at h
  | cons a rest ih =>
    intro c t h
    rw [List.dropWhile_cons] at h
    by_cases hp : p a
    · rw [if_pos hp] at h
      exact ih c t h
    · rw [if_neg hp] at h
      cases h
      simpa using hp

theorem pyLStrip_head_not (s : Str) (c : Char) (t : Str)
    (h : pyLStrip s = c :: t) : isPyWs c = false :=
  dropWhile_head_not isPyWs s c t h

theorem pyRStrip_last_not (s : Str) (c : Char) (t : Str)
    (h : pyRStrip s = t ++ [c]) : isPyWs c = false := by
  unfold pyRStrip at h
  have h2 : s.reverse.dropWhile isPyWs = c :: t.reverse := by
    have := congrArg List.reverse h
    simpa using this
  exact dropWhile_head_not isPyWs s.reverse c t.reverse h2

theorem pyLStrip_eq_self (s : Str)
    (h : ∀ c t, s = c :: t → isPyWs c = false) : pyLStrip s = s := by
  cases s with
  | nil => rfl
  | cons a rest =>
    unfold pyLStrip
    rw [List.dropWhile_cons, if_neg (by simp [h a rest rfl])]

theorem pyRStrip_eq_self (s : Str)
    (h : ∀ c t, s = t ++ [c] → isPyWs c = false) : pyRStrip s = s := by
  unfold pyRStrip
  cases hs : s.reverse with
  | nil =>
    have : s = [] := by simpa using congrArg List.reverse hs
    subst this
    rfl
  | cons a rest =>
    have hsplit : s = rest.reverse ++ [a] := by
      have := congrArg List.reverse hs
      simpa using this
    rw [List.dropWhile_cons, if_neg (by simp [h a rest.reverse hsplit])]
    rw [← hs]
    simp

theorem pyStrip_nil : pyStrip [] = [] := rfl

theorem pyRStrip_prefix_rest (x : Str) : x = pyRStrip x ++ (x.reverse.takeWhile isPyWs).reverse := by
  unfold pyRStrip
  rw [← List.reverse_append, List.takeWhile_append_dropWhile, List.reverse_reverse]

theorem pyStrip_head_not (s : Str) (c : Char) (t : Str)
    (h : pyStrip s = c :: t) : isPyWs c = false := by
  unfold pyStrip at h
  have hpre := pyRStrip_prefix_rest (pyLStrip s)
  rw [h] at hpre
  exact pyLStrip_head_not s c
    (t ++ ((pyLStrip s).reverse.takeWhile isPyWs).reverse) (by simpa using hpre)

theorem pyStrip_last_not (s : Str) (c : Char) (t : Str)
    (h : pyStrip s = t ++ [c]) : isPyWs c = false :=
  pyRStrip_last_not (pyLStrip s) c t h

theorem pyStrip_idem (s : Str) : pyStrip (pyStrip s) = pyStrip s := by
  cases hs : pyStrip s with
  | nil => rfl
  | cons a rest =>
    unfold pyStrip
    rw [pyLStrip_eq_self (a :: rest) (by
      intro c t hct
      injection hct with h1 h2
      exact h1 ▸ pyStrip_head_not s a rest hs)]
    apply pyRStrip_eq_self
    intro c t hct
    exact pyStrip_last_not s c t (by rw [hs, hct])

theorem mem_pyLStrip (s : Str) (c : Char) (h : c ∈ pyLStrip s) : c ∈ s :=
  (List.dropWhile_sublist isPyWs).mem h

theorem mem_pyRStrip (s : Str) (c : Char) (h : c ∈ pyRStrip s) : c ∈ s := by
  unfold pyRStrip at h
  rw [List.mem_reverse] at h
  have := (List.dropWhile_sublist isPyWs (l := s.reverse)).mem h
  simpa using this

theorem mem_pyStrip (s : Str) (c : Char) (h : c ∈ pyStrip s) : c ∈ s :=
  mem_pyLStrip s c (mem_pyRStrip (pyLStrip s) c h)

/-- Per-line body of helpers.enforce_telegram_limits: the loop strips the
line, keeps blank lines, hard-truncates question lines at 4096, shortens
long option lines to marker plus 97 characters plus an ellipsis, and
truncates explanation text at 200 characters appending a period when the
cut does not end in terminal punctuation. -/
def enfLine (line0 : Str) : Str :=
  let line := pyStrip line0
  if line.isEmpty then line
  else if qnumMatch line then
    if line.length > 4096 then line.take 4096 else line
  else if optMatch line then
    if line.length > 100 then
      let option_marker := line.take 3
      let option_text := pyStrip (line.drop 3)
      let option_text2 :=
        if option_text.length > 97 then option_text.take 97 ++ ['.', '.', '.']
        else option_text
      option_marker ++ option_text2
    else line
  else if pyStartsWith exTag line then
    let explanation := pyStrip (line.drop 3)
    if explanation.length > 200 then
      let e1 := explanation.take 200
      let e2 := if !pyEndsWithPunct e1 then pyRStrip e1 ++ ['.'] else e1
      exTag ++ [' '] ++ e2
    else line
  else line

/-- helpers.enforce_telegram_limits: split into lines, apply the per-line
body (the Python loop appends exactly one output line per input line),
and rejoin with newlines. -/
def enforce_telegram_limits (text : Str) : Str :=
  joinLines ((splitLines text).map enfLine)

/-- ai_handler.normalize_option_line: collapse whitespace runs, and when the
result exceeds max_len cut to max_len - 3, right-strip, and append an
ellipsis. -/
def normalize_option_line (op_line : Str) (max_len : Nat) : Str :=
  let s := joinSpace (pyWords op_line)
  if s.length > max_len then pyRStrip (s.take (max_len - 3)) ++ ['.', '.', '.']
  else s

theorem optMatch_shape (s : Str) (h : optMatch s = true) :
    ∃ a t, s = a :: ')' :: t ∧ (a = 'a' ∨ a = 'b' ∨ a = 'c' ∨ a = 'd') := by
  match s, h with
  | a :: b :: t, h =>
    simp only [optMatch, Bool.and_eq_true, Bool.or_eq_true, decide_eq_true_eq] at h
    exact ⟨a, t, by rw [h.2], by tauto⟩

theorem optMatch_qnum_false (s : Str) (h : optMatch s = true) : qnumMatch s = false := by
  obtain ⟨a, t, rfl, ha⟩ := optMatch_shape s h
  have hnd : a.isDigit = false := by
    rcases ha with h | h | h | h <;> subst h <;> decide
  simp [qnumMatch, List.takeWhile, hnd]

theorem optMatch_ne_nil (s : Str) (h : optMatch s = true) : s.isEmpty = false := by
  obtain ⟨a, t, rfl, _⟩ := optMatch_shape s h
  rfl

theorem exTag_shape (s : Str) (h : pyStartsWith exTag s = true) :
    ∃ t, s = 'E' :: 'x' :: ':' :: t := by
  simp only [pyStartsWith, exTag] at h
  rw [List.isPrefixOf_iff_prefix] at h
  obtain ⟨t, ht⟩ := h
  exact ⟨t, by rw [← ht]; rfl⟩

theorem exTag_qnum_false (s : Str) (h : pyStartsWith exTag s = true) :
    qnumMatch s = false := by
  obtain ⟨t, rfl⟩ := exTag_shape s h
  simp [qnumMatch, List.takeWhile]

theorem exTag_opt_false (s : Str) (h : pyStartsWith exTag s = true) :
    optMatch s = false := by
  obtain ⟨t, rfl⟩ := exTag_shape s h
  simp [optMatch]

theorem exTag_ne_nil (s : Str) (h : pyStartsWith exTag s = true) : s.isEmpty = false := by
  obtain ⟨t, rfl⟩ := exTag_shape s h
  rfl

theorem pyRStrip_length_le (s : Str) : (pyRStrip s).length ≤ s.length := by
  unfold pyRStrip
  calc (s.reverse.dropWhile isPyWs).reverse.length
      = (s.reverse.dropWhile isPyWs).length := List.length_reverse _
    _ ≤ s.reverse.length := (List.dropWhile_sublist isPyWs).length_le
    _ = s.length := List.length_reverse _

theorem pyStrip_length_le (s : Str) : (pyStrip s).length ≤ s.length := by
  unfold pyStrip
  calc (pyRStrip (pyLStrip s)).length ≤ (pyLStrip s).length := pyRStrip_length_le _
    _ ≤ s.length := (List.dropWhile_sublist isPyWs).length_le

theorem enfLine_of_opt (l : Str) (h : optMatch (pyStrip l) = true) :
    enfLine l =
      if (pyStrip l).length > 100 then
        (pyStrip l).take 3 ++
          (if (pyStrip ((pyStrip l).drop 3)).length > 97 then
             (pyStrip ((pyStrip l).drop 3)).take 97 ++ ['.', '.', '.']
           else pyStrip ((pyStrip l).drop 3))
      else pyStrip l := by
  dsimp only [enfLine]
  rw [optMatch_ne_nil _ h, optMatch_qnum_false _ h, h]
  simp

theorem enfLine_of_ex (l : Str) (h : pyStartsWith exTag (pyStrip l) = true) :
    enfLine l =
      if (pyStrip ((pyStrip l).drop 3)).length > 200 then
        exTag ++ [' '] ++
          (if !pyEndsWithPunct ((pyStrip ((pyStrip l).drop 3)).take 200) then
             pyRStrip ((pyStrip ((pyStrip l).drop 3)).take 200) ++ ['.']
           else (pyStrip ((pyStrip l).drop 3)).take 200)
      else pyStrip l := by
  dsimp only [enfLine]
  rw [exTag_ne_nil _ h, exTag_qnum_false _ h, exTag_opt_false _ h, h]
  simp

/-- C3: for option lines the length-enforcement pass keeps the 3-character
marker untouched; when the stripped line exceeds 100 characters the text
after the marker is cut to 97 characters and an ellipsis is appended
unconditionally, so the result can reach 103 characters (not 100); lines
within 100 characters pass through stripped only.  The helper
normalize_option_line, in contrast, does stay within its budget. -/
theorem C3_option_line_truncation :
    (∀ l : Str, optMatch (pyStrip l) = true → (pyStrip l).length > 100 →
      (enfLine l).take 3 = (pyStrip l).take 3 ∧
      (enfLine l).length ≤ 103 ∧
      ((pyStrip ((pyStrip l).drop 3)).length > 97 →
        enfLine l =
          (pyStrip l).take 3 ++ (pyStrip ((pyStrip l).drop 3)).take 97 ++ ['.', '.', '.']) ∧
      ((pyStrip ((pyStrip l).drop 3)).length ≤ 97 →
        enfLine l = (pyStrip l).take 3 ++ pyStrip ((pyStrip l).drop 3) ∧
        (enfLine l).length ≤ 100)) ∧
    (∀ l : Str, optMatch (pyStrip l) = true → (pyStrip l).length ≤ 100 →
      enfLine l = pyStrip l) ∧
    (∀ (op : Str) (max_len : Nat), 3 ≤ max_len →
      (normalize_option_line op max_len).length ≤ max_len) := by
  refine ⟨?_, ?_, ?_⟩
  · intro l h hlong
    rw [enfLine_of_opt l h, if_pos hlong]
    set t := pyStrip ((pyStrip l).drop 3) with ht
    by_cases h97 : t.length > 97
    · rw [if_pos h97]
      refine ⟨?_, ?_, ?_, ?_⟩
      · rw [List.take_append_of_le_length]
        · simp [List.take_take]
        · simp [List.length_take]
          omega
      · simp [List.length_append, List.length_take]
        omega
      · intro _
        simp
      · intro hle
        omega
    · rw [if_neg h97]
      push_neg at h97
      refine ⟨?_, ?_, ?_, ?_⟩
      · rw [List.take_append_of_le_length]
        · simp [List.take_take]
        · simp [List.length_take]
          omega
      · simp [List.length_append, List.length_take]
        omega
      · intro hgt
        omega
      · intro _
        refine ⟨rfl, ?_⟩
        simp [List.length_append, List.length_take]
        omega
  · intro l h hshort
    rw [enfLine_of_opt l h, if_neg (by omega)]
  · intro op max_len h3
    unfold normalize_option_line
    by_cases hlen : (joinSpace (pyWords op)).length > max_len
    · rw [if_pos hlen]
      have h1 : (pyRStrip ((joinSpace (pyWords op)).take (max_len - 3))).length ≤ max_len - 3 := by
        calc (pyRStrip ((joinSpace (pyWords op)).take (max_len - 3))).length
            ≤ ((joinSpace (pyWords op)).take (max_len - 3)).length := pyRStrip_length_le _
          _ ≤ max_len - 3 := by simp [List.length_take]
      simp only [List.length_append]
      simp only [List.length_cons, List.length_nil]
      omega
    · rw [if_neg hlen]
      omega

theorem joinLines_singleton (l : Str) : joinLines [l] = l := by
  simp [joinLines, List.intercalate, List.intersperse]

theorem splitLines_no_nl (l : Str) (h : ∀ c ∈ l, (c = '\n') = False) :
    splitLines l = [l] := by
  unfold splitLines
  apply splitOnP_no_delim_eq
  intro c hc
  simpa using h c hc

theorem enforce_telegram_limits_single (l : Str) (h : ∀ c ∈ l, (c = '\n') = False) :
    enforce_telegram_limits l = enfLine l := by
  unfold enforce_telegram_limits
  rw [splitLines_no_nl l h]
  simp [joinLines_singleton]

theorem pyLStrip_eq_self_of_head (s : Str) (c : Char)
    (h : s.head? = some c) (hc : isPyWs c = false) : pyLStrip s = s := by
  cases s with
  | nil => rfl
  | cons a t =>
    simp at h
    subst h
    unfold pyLStrip
    rw [List.dropWhile_cons, if_neg (by simp [hc])]

theorem pyRStrip_eq_self_of_last (s : Str) (c : Char)
    (h : s.getLast? = some c) (hc : isPyWs c = false) : pyRStrip s = s := by
  apply pyRStrip_eq_self
  intro c2 t hct
  have : s.getLast? = some c2 := by rw [hct, List.getLast?_concat]
  rw [h] at this
  have hcc : c = c2 := by injection this
  rw [← hcc]
  exact hc

theorem pyStrip_eq_self_of_ends (s : Str) (c1 c2 : Char)
    (h1 : s.head? = some c1) (hc1 : isPyWs c1 = false)
    (h2 : s.getLast? = some c2) (hc2 : isPyWs c2 = false) : pyStrip s = s := by
  unfold pyStrip
  rw [pyLStrip_eq_self_of_head s c1 h1 hc1, pyRStrip_eq_self_of_last s c2 h2 hc2]

theorem pyRStrip_append_ws (x : Str) (c : Char) (hc : isPyWs c = true) :
    pyRStrip (x ++ [c]) = pyRStrip x := by
  unfold pyRStrip
  rw [List.reverse_append]
  simp [List.dropWhile_cons, hc]

/-- C4: for explanation lines over the 200-character budget the
length-enforcement pass yields an explanation of at most 201 characters
(201 exactly when the 200-character cut has no trailing whitespace and
does not end in terminal punctuation, because the period is appended after
the cut) that always ends in terminal punctuation; the period is appended
exactly when the truncated text does not already end in one. -/
theorem C4_explanation_truncation :
    ∀ l : Str, pyStartsWith exTag (pyStrip l) = true →
      (pyStrip ((pyStrip l).drop 3)).length > 200 →
      ∃ e2 : Str,
        enfLine l = exTag ++ [' '] ++ e2 ∧
        e2.length ≤ 201 ∧
        pyEndsWithPunct e2 = true ∧
        (pyEndsWithPunct ((pyStrip ((pyStrip l).drop 3)).take 200) = false →
          e2 = pyRStrip ((pyStrip ((pyStrip l).drop 3)).take 200) ++ ['.']) ∧
        (pyEndsWithPunct ((pyStrip ((pyStrip l).drop 3)).take 200) = true →
          e2 = (pyStrip ((pyStrip l).drop 3)).take 200 ∧ e2.length = 200) := by
  intro l h hlong
  rw [enfLine_of_ex l h, if_pos hlong]
  set e := pyStrip ((pyStrip l).drop 3) with he
  by_cases hp : pyEndsWithPunct (e.take 200) = true
  · refine ⟨e.take 200, ?_, ?_, ?_, ?_, ?_⟩
    · rw [hp]
      simp
    · simp [List.length_take]
    · exact hp
    · intro hq
      rw [hp] at hq
      cases hq
    · intro _
      refine ⟨rfl, ?_⟩
      simp [List.length_take]
      omega
  · have hp2 : pyEndsWithPunct (e.take 200) = false := by
      cases hq : pyEndsWithPunct (e.take 200)
      · rfl
      · exact absurd hq hp
    refine ⟨pyRStrip (e.take 200) ++ ['.'], ?_, ?_, ?_, ?_, ?_⟩
    · rw [hp2]
      simp
    · have : (pyRStrip (e.take 200)).length ≤ 200 := by
        calc (pyRStrip (e.take 200)).length ≤ (e.take 200).length := pyRStrip_length_le _
          _ ≤ 200 := by simp [List.length_take]
      simp [List.length_append]
      omega
    · unfold pyEndsWithPunct
      rw [List.getLast?_concat]
      rfl
    · intro _
      rfl
    · intro hq
      rw [hp2] at hq
      cases hq

set_option maxRecDepth 100000

/-- Concrete option line of 123 characters used to exercise the option
branch of the length enforcer. -/
def c3input : Str := 'a' :: ')' :: ' ' :: List.replicate 120 'x'

/-- C3 counterexample: on a 123-character option line the enforcement pass
produces a 103-character line (marker plus 97 characters plus ellipsis),
exceeding the 100-character option budget, with the ellipsis appended even
though it does not fit within the budget. -/
theorem C3_option_budget_exceeded :
    enforce_telegram_limits c3input =
      'a' :: ')' :: ' ' :: (List.replicate 97 'x' ++ ['.', '.', '.']) ∧
    (enforce_telegram_limits c3input).length = 103 := by
  constructor
  · decide
  · decide

/-- C3 witness: the amended statement applied to the concrete long option
line. -/
theorem C3_option_line_truncation_witness :
    (enfLine c3input).take 3 = (pyStrip c3input).take 3 ∧
    (enfLine c3input).length ≤ 103 ∧
    enfLine c3input =
      (pyStrip c3input).take 3 ++ (pyStrip ((pyStrip c3input).drop 3)).take 97 ++
        ['.', '.', '.'] := by
  have h := C3_option_line_truncation.1 c3input (by decide) (by decide)
  exact ⟨h.1, h.2.1, h.2.2.1 (by decide)⟩

/-- Concrete explanation line whose text has 250 characters. -/
def c4input : Str := exTag ++ [' '] ++ List.replicate 250 'a'

/-- C4 counterexample: the enforced explanation has 201 characters, one
over the 200-character budget the claim states, because the period is
appended after the 200-character cut. -/
theorem C4_explanation_budget_exceeded :
    enforce_telegram_limits c4input =
      exTag ++ [' '] ++ (List.replicate 200 'a' ++ ['.']) ∧
    (List.replicate 200 'a' ++ ['.']).length = 201 := by
  constructor
  · decide
  · decide

/-- C4 witness: the amended statement applied to the concrete long
explanation line. -/
theorem C4_explanation_truncation_witness :
    ∃ e2 : Str, enfLine c4input = exTag ++ [' '] ++ e2 ∧ e2.length ≤ 201 ∧
      pyEndsWithPunct e2 = true := by
  obtain ⟨e2, h1, h2, h3, _, _⟩ := C4_explanation_truncation c4input (by decide) (by decide)
  exact ⟨e2, h1, h2, h3⟩

/-- Count table built by ai_handler.balanced_shuffled_letters: every letter
starts at n // 4 and the first n % 4 entries of the shuffled letter list
each receive one extra.  The shuffled letter list is passed in explicitly,
standing for the outcome of the first random.shuffle call. -/
def balanced_counts (letters : List Char) (n : Nat) : Char → Nat :=
  fun l => n / 4 + (letters.take (n % 4)).count l

/-- Pool built by ai_handler.balanced_shuffled_letters before its final
shuffle: each letter repeated according to its count, in the dict insertion
order A, B, C, D.  The final random.shuffle only permutes this pool, which
the theorem models by quantifying over all permutations of it. -/
def balanced_pool (letters : List Char) (n : Nat) : List Char :=
  ['A', 'B', 'C', 'D'].bind (fun l => List.replicate (balanced_counts letters n l) l)

theorem count_abcd_eq_length (xs : List Char)
    (h : ∀ c ∈ xs, c = 'A' ∨ c = 'B' ∨ c = 'C' ∨ c = 'D') :
    xs.count 'A' + xs.count 'B' + xs.count 'C' + xs.count 'D' = xs.length := by
  induction xs with
  | nil => simp
  | cons a rest ih =>
    have ha := h a (by simp)
    have ih2 := ih (fun c hc => h c (List.mem_cons_of_mem _ hc))
    rcases ha with h1 | h1 | h1 | h1 <;> subst h1 <;>
      simp [List.count_cons, List.length_cons] <;> omega

theorem count_balanced_pool (letters : List Char) (n : Nat) (c : Char)
    (hc : c = 'A' ∨ c = 'B' ∨ c = 'C' ∨ c = 'D') :
    (balanced_pool letters n).count c = balanced_counts letters n c := by
  rcases hc with h | h | h | h <;> subst h <;>
    simp [balanced_pool, List.count_append, List.count_replicate]

theorem length_balanced_pool (letters : List Char) (n : Nat)
    (hperm : letters.Perm ['A', 'B', 'C', 'D']) :
    (balanced_pool letters n).length = n := by
  have hlen : letters.length = 4 := by
    rw [hperm.length_eq]
    rfl
  have hmem : ∀ c ∈ letters.take (n % 4), c = 'A' ∨ c = 'B' ∨ c = 'C' ∨ c = 'D' := by
    intro c hc
    have : c ∈ letters := (List.take_sublist _ _).mem hc
    have := hperm.mem_iff.mp this
    simpa using this
  have hsum := count_abcd_eq_length (letters.take (n % 4)) hmem
  have htl : (letters.take (n % 4)).length = n % 4 := by
    rw [List.length_take, hlen]
    omega
  simp [balanced_pool, List.length_append, List.length_replicate, balanced_counts]
  omega

theorem take_count_le_one (letters : List Char) (n : Nat) (c : Char)
    (hperm : letters.Perm ['A', 'B', 'C', 'D']) :
    (letters.take (n % 4)).count c ≤ 1 := by
  have hnd : letters.Nodup := hperm.nodup_iff.mpr (by decide)
  have hnd2 : (letters.take (n % 4)).Nodup := (List.take_sublist _ _).nodup hnd
  exact List.nodup_iff_count_le_one.mp hnd2 c

/-- C2: for every n and every outcome of the two internal shuffles
(modelled as an arbitrary permutation letters of the four letters and an
arbitrary permutation pool2 of the built pool), the pool has exactly n
letters drawn from A, B, C, D, each letter occurring n / 4 or n / 4 + 1
times, so any two counts differ by at most 1; for n = 8 every letter
occurs exactly twice. -/
theorem C2_balanced_shuffled_letters (n : Nat) (letters pool2 : List Char)
    (hperm : letters.Perm ['A', 'B', 'C', 'D'])
    (hpool : pool2.Perm (balanced_pool letters n)) :
    pool2.length = n ∧
    (∀ c ∈ pool2, c = 'A' ∨ c = 'B' ∨ c = 'C' ∨ c = 'D') ∧
    (∀ c, (c = 'A' ∨ c = 'B' ∨ c = 'C' ∨ c = 'D') →
      pool2.count c = n / 4 ∨ pool2.count c = n / 4 + 1) ∧
    (∀ c1 c2, (c1 = 'A' ∨ c1 = 'B' ∨ c1 = 'C' ∨ c1 = 'D') →
      (c2 = 'A' ∨ c2 = 'B' ∨ c2 = 'C' ∨ c2 = 'D') →
      pool2.count c1 ≤ pool2.count c2 + 1) ∧
    (n = 8 → ∀ c, (c = 'A' ∨ c = 'B' ∨ c = 'C' ∨ c = 'D') → pool2.count c = 2) := by
  have hcount : ∀ c, (c = 'A' ∨ c = 'B' ∨ c = 'C' ∨ c = 'D') →
      pool2.count c = balanced_counts letters n c := by
    intro c hc
    rw [hpool.count_eq, count_balanced_pool letters n c hc]
  have hrange : ∀ c, (c = 'A' ∨ c = 'B' ∨ c = 'C' ∨ c = 'D') →
      pool2.count c = n / 4 ∨ pool2.count c = n / 4 + 1 := by
    intro c hc
    rw [hcount c hc]
    unfold balanced_counts
    have h1 := take_count_le_one letters n c hperm
    omega
  refine ⟨?_, ?_, hrange, ?_, ?_⟩
  · rw [hpool.length_eq]
    exact length_balanced_pool letters n hperm
  · intro c hc
    have hmem : c ∈ balanced_pool letters n := hpool.mem_iff.mp hc
    simp [balanced_pool] at hmem
    tauto
  · intro c1 c2 h1 h2
    rcases hrange c1 h1 with h | h <;> rcases hrange c2 h2 with h2b | h2b <;> omega
  · intro hn c hc
    subst hn
    rw [hcount c hc]
    unfold balanced_counts
    norm_num

/-- C2 witness: the theorem applied at n = 8 with the identity outcomes of
both shuffles. -/
theorem C2_balanced_shuffled_letters_witness :
    (balanced_pool ['A', 'B', 'C', 'D'] 8).length = 8 ∧
    (balanced_pool ['A', 'B', 'C', 'D'] 8).count 'A' = 2 ∧
    (balanced_pool ['A', 'B', 'C', 'D'] 8).count 'D' = 2 := by
  have h := C2_balanced_shuffled_letters 8 ['A', 'B', 'C', 'D']
    (balanced_pool ['A', 'B', 'C', 'D'] 8) (List.Perm.refl _) (List.Perm.refl _)
  exact ⟨h.1, h.2.2.2.2 rfl 'A' (by tauto), h.2.2.2.2 rfl 'D' (by tauto)⟩

/-- Python str.rfind of a space character: index of the last space, or
none when absent (Python returns -1; the only use compares the result
with 150, and none models the -1 case). -/
def pyRFindSpace (s : Str) : Option Nat :=
  match s.reverse.findIdx? (fun c => c = ' ') with
  | some i => some (s.length - 1 - i)
  | none => none

/-- Join with the two-character separator dot-space used by
optimize_for_poll for explanation sentences. -/
def joinDotSpace (ps : List Str) : Str := List.intercalate ['.', ' '] ps

/-- Body of the question branch of helpers.optimize_for_poll for lines
longer than 4000: split into sentences, keep the first sentence when it
fits, otherwise accumulate whole words greedily, otherwise hard-truncate.
Because a question line starts with digits followed by a dot, the sentence
list always has more than one entry. -/
def optQuestionLine (line : Str) : Str :=
  let sentences := splitOnP isPunctChar line
  if sentences.length > 1 then
    let first_sentence := pyStrip sentences.headI
    if first_sentence ≠ [] ∧ first_sentence.length ≤ 4000 then first_sentence ++ ['.']
    else
      let shortened := greedyWords 4000 0 (pyWords line)
      if shortened ≠ [] then joinSpace shortened
      else line.take 4000
  else line.take 4000

/-- The sentence-accumulation loop of the explanation branch of
helpers.optimize_for_poll: keep whole sentences while the running length
(counting each sentence plus one for its dot) stays within 200; at the
first sentence that does not fit, keep a greedy word-prefix of it and
stop. -/
def exAccum : Nat → List Str → List Str
  | _, [] => []
  | cur, s :: rest =>
    let s1 := pyStrip s
    if s1 = [] then exAccum cur rest
    else
      let swd := if ¬ (pyEndsWithDot s1 = true) then s1 ++ ['.'] else s1
      if cur + swd.length ≤ 200 then s1 :: exAccum (cur + swd.length) rest
      else
        let pw := greedyWords 200 cur (pyWords s1)
        if pw ≠ [] then [joinSpace pw] else []

/-- Body of the explanation branch of helpers.optimize_for_poll for
explanations longer than 200 characters: sentence accumulation joined with
dot-space and a final period when needed, with a word-boundary fallback
when no sentence part survives. -/
def optExLine (line : Str) : Str :=
  let explanation := pyStrip (line.drop 3)
  if explanation.length > 200 then
    let important_parts := exAccum 0 (splitOnP isPunctChar explanation)
    if important_parts ≠ [] then
      let oe := joinDotSpace important_parts
      let oe2 := if oe ≠ [] ∧ ¬ (pyEndsWithPunct oe = true) then oe ++ ['.'] else oe
      exTag ++ [' '] ++ oe2
    else
      if explanation.length > 200 then
        match pyRFindSpace (explanation.take 200) with
        | some k =>
          if k > 150 then exTag ++ [' '] ++ explanation.take k
          else exTag ++ [' '] ++ explanation.take 200
        | none => exTag ++ [' '] ++ explanation.take 200
      else line
  else line

/-- Body of the option branch of helpers.optimize_for_poll: greedy
word-boundary truncation of the text after the three-character marker. -/
def optOptionLine (line : Str) : Str :=
  let option_text := pyStrip (line.drop 3)
  if option_text.length > 100 then
    let shortened := greedyWords 100 0 (pyWords option_text)
    if shortened ≠ [] then line.take 3 ++ joinSpace shortened
    else line.take 3 ++ option_text.take 100
  else line

/-- Per-line body of helpers.optimize_for_poll, with the branch order of
the source: blank lines kept verbatim, then question lines, then
explanation lines, then lowercase option lines, everything else kept
verbatim. -/
def optimizeLine (line : Str) : Str :=
  if (pyStrip line).isEmpty then line
  else if qnumMatch line then
    if line.length > 4000 then optQuestionLine line else line
  else if pyStartsWith exTag line then optExLine line
  else if optMatch line then optOptionLine line
  else line

/-- helpers.optimize_for_poll: split into lines, apply the per-line body
(the Python loop appends exactly one output line per input line), rejoin
with newlines. -/
def optimize_for_poll (text : Str) : Str :=
  joinLines ((splitLines text).map optimizeLine)

theorem mem_intercalate (sep : Str) (ls : List Str) (c : Char)
    (h : c ∈ List.intercalate sep ls) : c ∈ sep ∨ ∃ l ∈ ls, c ∈ l := by
  induction ls with
  | nil =>
    simp [List.intercalate, List.intersperse] at h
  | cons l rest ih =>
    cases rest with
    | nil =>
      simp [List.intercalate, List.intersperse] at h
      exact Or.inr ⟨l, by simp, h⟩
    | cons l2 rest2 =>
      have step : List.intercalate sep (l :: l2 :: rest2) =
          l ++ sep ++ List.intercalate sep (l2 :: rest2) := by
        simp [List.intercalate, List.intersperse]
      rw [step] at h
      simp only [List.append_assoc, List.mem_append] at h
      rcases h with h | h | h
      · exact Or.inr ⟨l, by simp, h⟩
      · exact Or.inl h
      · rcases ih h with h2 | ⟨l3, hl3, hc3⟩
        · exact Or.inl h2
        · exact Or.inr ⟨l3, List.mem_cons_of_mem _ hl3, hc3⟩

theorem mem_pyWords (s : Str) (w : Str) (hw : w ∈ pyWords s) (c : Char) (hc : c ∈ w) :
    c ∈ s := by
  unfold pyWords at hw
  exact mem_of_mem_splitOnP isPyWs s w (List.mem_of_mem_filter hw) c hc

theorem mem_greedyWords (b : Nat) : ∀ (cur : Nat) (ws : List Str) (w : Str),
    w ∈ greedyWords b cur ws → w ∈ ws := by
  intro cur ws
  induction ws generalizing cur with
  | nil => intro w h; simp [greedyWords] at h
  | cons w0 rest ih =>
    intro w h
    simp only [greedyWords] at h
    split at h
    · rcases List.mem_cons.mp h with h2 | h2
      · subst h2; exact List.mem_cons_self _ _
      · exact List.mem_cons_of_mem _ (ih _ w h2)
    · simp at h

theorem mem_joinSpace (ws : List Str) (c : Char) (h : c ∈ joinSpace ws) :
    c = ' ' ∨ ∃ w ∈ ws, c ∈ w := by
  rcases mem_intercalate [' '] ws c h with h2 | h2
  · simp at h2; exact Or.inl h2
  · exact Or.inr h2

theorem mem_exAccum : ∀ (cur : Nat) (ss : List Str) (p : Str),
    p ∈ exAccum cur ss → ∀ c ∈ p, (∃ s ∈ ss, c ∈ s) ∨ c = ' ' := by
  intro cur ss
  induction ss generalizing cur with
  | nil => intro p h; simp [exAccum] at h
  | cons s rest ih =>
    intro p hp c hc
    simp only [exAccum] at hp
    by_cases h1 : pyStrip s = []
    · rw [if_pos h1] at hp
      rcases ih cur p hp c hc with ⟨s2, hs2, hc2⟩ | h2
      · exact Or.inl ⟨s2, List.mem_cons_of_mem _ hs2, hc2⟩
      · exact Or.inr h2
    · rw [if_neg h1] at hp
      split at hp <;> split at hp
      all_goals
        first
        | (rcases List.mem_cons.mp hp with h2 | h2
           · subst h2
             exact Or.inl ⟨s, List.mem_cons_self _ _, mem_pyStrip s c hc⟩
           · rcases ih _ p h2 c hc with ⟨s2, hs2, hc2⟩ | h3
             · exact Or.inl ⟨s2, List.mem_cons_of_mem _ hs2, hc2⟩
             · exact Or.inr h3)
        | (split at hp
           · have h2 := List.mem_singleton.mp hp
             subst h2
             rcases mem_joinSpace _ c hc with h3 | ⟨w, hw, hcw⟩
             · exact Or.inr h3
             · have hw2 := mem_greedyWords 200 cur (pyWords (pyStrip s)) w hw
               exact Or.inl ⟨s, List.mem_cons_self _ _,
                 mem_pyStrip s c (mem_pyWords (pyStrip s) w hw2 c hcw)⟩
           · simp at hp)

theorem mem_optQuestionLine (line : Str) (c : Char) (h : c ∈ optQuestionLine line) :
    c ∈ line ∨ c = '.' ∨ c = ' ' := by
  dsimp only [optQuestionLine] at h
  split at h
  · split at h
    · rcases List.mem_append.mp h with h2 | h2
      · have hmem : c ∈ (splitOnP isPunctChar line).headI := mem_pyStrip _ c h2
        have hhead : (splitOnP isPunctChar line).headI ∈ splitOnP isPunctChar line := by
          cases hsp : splitOnP isPunctChar line with
          | nil => exact absurd hsp (splitOnP_ne_nil _ _)
          | cons a t => simp
        exact Or.inl (mem_of_mem_splitOnP isPunctChar line _ hhead c hmem)
      · simp at h2
        exact Or.inr (Or.inl h2)
    · split at h
      · rcases mem_joinSpace _ c h with h2 | ⟨w, hw, hcw⟩
        · exact Or.inr (Or.inr h2)
        · exact Or.inl (mem_pyWords line w (mem_greedyWords 4000 0 _ w hw) c hcw)
      · exact Or.inl (List.take_subset _ _ h)
  · exact Or.inl (List.take_subset _ _ h)

theorem mem_optExLine (line : Str) (c : Char) (h : c ∈ optExLine line) :
    c ∈ line ∨ c ∈ exTag ∨ c = ' ' ∨ c = '.' := by
  have hdropmem : ∀ d : Char, d ∈ pyStrip (line.drop 3) → d ∈ line := by
    intro d hd
    exact List.drop_subset _ _ (mem_pyStrip _ d hd)
  dsimp only [optExLine] at h
  split at h
  · split at h
    · simp only [List.append_assoc, List.mem_append] at h
      rcases h with h | h | h
      · exact Or.inr (Or.inl h)
      · simp at h
        exact Or.inr (Or.inr (Or.inl h))
      · have hoe : ∀ d : Char, d ∈ joinDotSpace (exAccum 0 (splitOnP isPunctChar (pyStrip (line.drop 3)))) →
            d ∈ line ∨ d = ' ' ∨ d = '.' := by
          intro d hd
          rcases mem_intercalate ['.', ' '] _ d hd with h2 | ⟨p, hp, hdp⟩
          · simp at h2
            rcases h2 with h2 | h2
            · exact Or.inr (Or.inr h2)
            · exact Or.inr (Or.inl h2)
          · rcases mem_exAccum 0 _ p hp d hdp with ⟨s, hs, hds⟩ | h3
            · exact Or.inl (hdropmem d
                (mem_of_mem_splitOnP isPunctChar (pyStrip (line.drop 3)) s hs d hds))
            · exact Or.inr (Or.inl h3)
        split at h
        · rcases List.mem_append.mp h with h2 | h2
          · rcases hoe c h2 with h3 | h3 | h3
            · exact Or.inl h3
            · exact Or.inr (Or.inr (Or.inl h3))
            · exact Or.inr (Or.inr (Or.inr h3))
          · simp at h2
            exact Or.inr (Or.inr (Or.inr h2))
        · rcases hoe c h with h3 | h3 | h3
          · exact Or.inl h3
          · exact Or.inr (Or.inr (Or.inl h3))
          · exact Or.inr (Or.inr (Or.inr h3))
    · split at h <;> try split at h <;> try split at h
      all_goals
        first
        | exact Or.inl h
        | (simp only [List.append_assoc, List.mem_append] at h
           rcases h with h | h | h
           · exact Or.inr (Or.inl h)
           · simp at h
             exact Or.inr (Or.inr (Or.inl h))
           · exact Or.inl (hdropmem c (List.take_subset _ _ h)))
  · exact Or.inl h

theorem mem_optOptionLine (line : Str) (c : Char) (h : c ∈ optOptionLine line) :
    c ∈ line ∨ c = ' ' := by
  have hdropmem : ∀ d : Char, d ∈ pyStrip (line.drop 3) → d ∈ line := by
    intro d hd
    exact List.drop_subset _ _ (mem_pyStrip _ d hd)
  dsimp only [optOptionLine] at h
  split at h
  · split at h
    · rcases List.mem_append.mp h with h2 | h2
      · exact Or.inl (List.take_subset _ _ h2)
      · rcases mem_joinSpace _ c h2 with h3 | ⟨w, hw, hcw⟩
        · exact Or.inr h3
        · exact Or.inl (hdropmem c
            (mem_pyWords (pyStrip (line.drop 3)) w (mem_greedyWords 100 0 _ w hw) c hcw))
    · rcases List.mem_append.mp h with h2 | h2
      · exact Or.inl (List.take_subset _ _ h2)
      · exact Or.inl (hdropmem c (List.take_subset _ _ h2))
  · exact Or.inl h

theorem mem_optimizeLine (line : Str) (c : Char) (h : c ∈ optimizeLine line) :
    c ∈ line ∨ c = '.' ∨ c = ' ' ∨ c ∈ exTag := by
  dsimp only [optimizeLine] at h
  split at h
  · exact Or.inl h
  · split at h
    · split at h
      · rcases mem_optQuestionLine line c h with h2 | h2 | h2
        · exact Or.inl h2
        · exact Or.inr (Or.inl h2)
        · exact Or.inr (Or.inr (Or.inl h2))
      · exact Or.inl h
    · split at h
      · rcases mem_optExLine line c h with h2 | h2 | h2 | h2
        · exact Or.inl h2
        · exact Or.inr (Or.inr (Or.inr h2))
        · exact Or.inr (Or.inr (Or.inl h2))
        · exact Or.inr (Or.inl h2)
      · split at h
        · rcases mem_optOptionLine line c h with h2 | h2
          · exact Or.inl h2
          · exact Or.inr (Or.inr (Or.inl h2))
        · exact Or.inl h

theorem optimizeLine_no_nl (line : Str) (hline : ∀ c ∈ line, (c = '\n') = False) :
    ∀ c ∈ optimizeLine line, (c = '\n') = False := by
  intro c hc
  rcases mem_optimizeLine line c hc with h | h | h | h
  · exact hline c h
  · subst h; simp
  · subst h; simp
  · simp only [exTag, List.mem_cons, List.not_mem_nil, or_false] at h
    rcases h with h | h | h <;> subst h <;> simp

theorem splitLines_optimize_for_poll (t : Str) :
    splitLines (optimize_for_poll t) = (splitLines t).map optimizeLine := by
  unfold optimize_for_poll
  apply splitLines_joinLines
  · have := splitOnP_ne_nil (fun c => decide (c = '\n')) t
    intro hmap
    rw [List.map_eq_nil] at hmap
    exact this hmap
  · intro l hl c hc
    rw [List.mem_map] at hl
    rcases hl with ⟨l0, hl0, rfl⟩
    exact optimizeLine_no_nl l0 (fun d hd => mem_splitLines_no_nl t l0 hl0 d hd) c hc

/-- C10: optimize_for_poll is line-count preserving and frame-respecting:
the output lines are exactly the per-line images of the input lines in
order (so one output line per input line), and any line that is blank, or
matches none of the question, explanation, or lowercase-option patterns,
is passed through unchanged. -/
theorem C10_optimize_for_poll_frame :
    (∀ t : Str, splitLines (optimize_for_poll t) = (splitLines t).map optimizeLine) ∧
    (∀ t : Str, (splitLines (optimize_for_poll t)).length = (splitLines t).length) ∧
    (∀ line : Str, (pyStrip line).isEmpty = true → optimizeLine line = line) ∧
    (∀ line : Str, (pyStrip line).isEmpty = false → qnumMatch line = false →
      pyStartsWith exTag line = false → optMatch line = false →
      optimizeLine line = line) := by
  refine ⟨splitLines_optimize_for_poll, ?_, ?_, ?_⟩
  · intro t
    rw [splitLines_optimize_for_poll]
    simp
  · intro line h
    unfold optimizeLine
    rw [if_pos h]
  · intro line h1 h2 h3 h4
    unfold optimizeLine
    simp [h1, h2, h3, h4]

/-- Small two-line text whose first line is a plain sentence and whose
second is blank followed by an uppercase option line. -/
def c10input : Str :=
  ('s' :: 'o' :: 'm' :: 'e' :: ' ' :: 't' :: 'e' :: 'x' :: 't' :: []) ++ '\n' ::
    ('(' :: 'A' :: ')' :: ' ' :: 'o' :: 'k' :: [])

/-- C10 witness: the theorem applied to a concrete text and concrete
pass-through lines. -/
theorem C10_optimize_for_poll_frame_witness :
    (splitLines (optimize_for_poll c10input)).length = (splitLines c10input).length ∧
    optimizeLine ('h' :: 'i' :: []) = 'h' :: 'i' :: [] ∧
    optimizeLine [] = [] := by
  refine ⟨C10_optimize_for_poll_frame.2.1 c10input, ?_, ?_⟩
  · exact C10_optimize_for_poll_frame.2.2.2 ('h' :: 'i' :: [])
      (by decide) (by decide) (by decide) (by decide)
  · exact C10_optimize_for_poll_frame.2.2.1 [] (by decide)

/-- The re.split call of ai_handler.split_mcqs and bi_handler.split_mcq_blocks:
split at every newline that is immediately followed by digits, a dot and a
whitespace character (the lookahead is not consumed). -/
def splitQBoundary : Str → List Str
  | [] => [[]]
  | c :: rest =>
    if c = '\n' ∧ qnumSpMatch rest = true then [] :: splitQBoundary rest
    else
      match splitQBoundary rest with
      | [] => [[c]]
      | h :: t => (c :: h) :: t

/-- ai_handler.split_mcqs: regex split, then strip each part and drop the
falsy (empty after strip) ones. -/
def split_mcqs (raw : Str) : List Str :=
  ((splitQBoundary raw).map pyStrip).filter (fun p => p ≠ [])

/-- bi_handler.split_mcq_blocks: identical body to split_mcqs. -/
def split_mcq_blocks (text : Str) : List Str :=
  ((splitQBoundary text).map pyStrip).filter (fun p => p ≠ [])

theorem splitQBoundary_ne_nil (s : Str) : splitQBoundary s ≠ [] := by
  induction s with
  | nil => simp [splitQBoundary]
  | cons c rest ih =>
    simp only [splitQBoundary]
    split
    · simp
    · cases h : splitQBoundary rest with
      | nil => simp
      | cons a t => simp

theorem splitQBoundary_head_prefix (P : Str) (hP : ∀ c ∈ P, (c = '\n') = False) :
    ∀ t : Str, (splitQBoundary (P ++ t)).headI = P ++ (splitQBoundary t).headI := by
  induction P with
  | nil => intro t; simp
  | cons c P2 ih =>
    intro t
    have hc : (c = '\n') = False := hP c (by simp)
    have ih2 := ih (fun d hd => hP d (List.mem_cons_of_mem _ hd)) t
    simp only [List.cons_append, splitQBoundary]
    rw [if_neg (by simp [hc])]
    cases hsp : splitQBoundary (P2 ++ t) with
    | nil => exact absurd hsp (splitQBoundary_ne_nil _)
    | cons a b =>
      rw [hsp] at ih2
      simp at ih2 ⊢
      exact ih2

theorem takeWhile_digits_append (ds : Str) (hds : ∀ c ∈ ds, Char.isDigit c = true)
    (r : Str) : (ds ++ '.' :: r).takeWhile Char.isDigit = ds := by
  induction ds with
  | nil => simp [List.takeWhile_cons]
  | cons c t ih =>
    have hc := hds c (by simp)
    have ih2 := ih (fun d hd => hds d (List.mem_cons_of_mem _ hd))
    simp [List.takeWhile_cons, hc, ih2]

theorem qnumMatch_of_shape (ds r : Str) (hne : ds ≠ [])
    (hds : ∀ c ∈ ds, Char.isDigit c = true) :
    qnumMatch (ds ++ '.' :: r) = true := by
  unfold qnumMatch
  rw [takeWhile_digits_append ds hds r]
  simp [hne, List.drop_left]

theorem qnumSpMatch_shape (s : Str) (h : qnumSpMatch s = true) :
    ∃ ds w t, s = ds ++ '.' :: w :: t ∧ ds ≠ [] ∧
      (∀ c ∈ ds, Char.isDigit c = true) ∧ isPyWs w = true := by
  unfold qnumSpMatch at h
  simp only [Bool.and_eq_true, Bool.not_eq_true'] at h
  obtain ⟨hne, hm⟩ := h
  obtain ⟨t0, ht0⟩ := (List.takeWhile_prefix (l := s) (p := Char.isDigit))
  set ds := s.takeWhile Char.isDigit with hds
  have hdrop : s.drop ds.length = t0 := by
    rw [← ht0, List.drop_left]
  rw [hdrop] at hm
  have hdsne : ds ≠ [] := by
    intro hnil
    simp [List.isEmpty_iff, hnil] at hne
  have hdsall : ∀ c ∈ ds, Char.isDigit c = true := fun c hc => List.mem_takeWhile_imp hc
  cases t0 with
  | nil => simp at hm
  | cons a t1 =>
    cases t1 with
    | nil => simp at hm
    | cons w t =>
      simp only [Bool.and_eq_true, decide_eq_true_eq] at hm
      obtain ⟨ha, hw⟩ := hm
      subst ha
      exact ⟨ds, w, t, by rw [← ht0], hdsne, hdsall, hw⟩

theorem dropWhile_ne_nil_of_mem (p : Char → Bool) (y : Str) (c : Char)
    (hc : c ∈ y) (hp : p c = false) : y.dropWhile p ≠ [] := by
  intro hnil
  rw [List.dropWhile_eq_nil_iff] at hnil
  have := hnil c hc
  rw [hp] at this
  cases this

theorem pyRStrip_ne_nil_of_mem (y : Str) (c : Char) (hc : c ∈ y)
    (hp : isPyWs c = false) : pyRStrip y ≠ [] := by
  unfold pyRStrip
  intro h
  have h2 : y.reverse.dropWhile isPyWs = [] := by
    have := congrArg List.reverse h
    simpa using this
  exact dropWhile_ne_nil_of_mem isPyWs y.reverse c (by simpa using hc) hp h2

theorem pyRStrip_append_of_ne (x y : Str) (h : pyRStrip y ≠ []) :
    pyRStrip (x ++ y) = x ++ pyRStrip y := by
  unfold pyRStrip at h ⊢
  rw [List.reverse_append, List.dropWhile_append]
  have h2 : (y.reverse.dropWhile isPyWs).isEmpty = false := by
    cases hy : y.reverse.dropWhile isPyWs with
    | nil =>
      rw [hy] at h
      simp at h
    | cons a b => rfl
  rw [if_neg (by simp [h2])]
  simp

theorem pyRStrip_cons_shape (c : Char) (r : Str) (hc : isPyWs c = false) :
    ∃ r2, pyRStrip (c :: r) = c :: r2 := by
  have hne := pyRStrip_ne_nil_of_mem (c :: r) c (by simp) hc
  cases hsh : pyRStrip (c :: r) with
  | nil => exact absurd hsh hne
  | cons a b =>
    have hpre := pyRStrip_prefix_rest (c :: r)
    rw [hsh] at hpre
    have hca : c = a := by
      have := hpre
      simp at this
      exact this.1
    subst hca
    exact ⟨b, rfl⟩

theorem ws_not_digit (b : Char) (hb : isPyWs b = true) : Char.isDigit b = false := by
  unfold isPyWs at hb
  simp only [Bool.or_eq_true, decide_eq_true_eq] at hb
  rcases hb with ((((h | h) | h) | h) | h) | h <;> subst h <;> decide

theorem qnumMatch_pyStrip (p : Str) (ds r : Str) (hp : p = ds ++ '.' :: r)
    (hne : ds ≠ []) (hds : ∀ c ∈ ds, Char.isDigit c = true) :
    ∃ r2, pyStrip p = ds ++ '.' :: r2 := by
  subst hp
  have hhead : (ds ++ '.' :: r).head? = some (ds.headI) := by
    cases ds with
    | nil => exact absurd rfl hne
    | cons a t => simp
  have hdig : Char.isDigit ds.headI = true := by
    cases ds with
    | nil => exact absurd rfl hne
    | cons a t => exact hds a (by simp)
  have hnws : isPyWs ds.headI = false := by
    cases hq : isPyWs ds.headI
    · rfl
    · have := ws_not_digit ds.headI hq
      rw [hdig] at this
      cases this
  unfold pyStrip
  rw [pyLStrip_eq_self_of_head _ ds.headI hhead hnws]
  obtain ⟨r2, hr2⟩ := pyRStrip_cons_shape '.' r (by decide)
  rw [pyRStrip_append_of_ne ds ('.' :: r) (by rw [hr2]; simp), hr2]
  exact ⟨r2, rfl⟩

theorem qnumMatch_shape (s : Str) (h : qnumMatch s = true) :
    ∃ ds r, s = ds ++ '.' :: r ∧ ds ≠ [] ∧ (∀ c ∈ ds, Char.isDigit c = true) := by
  unfold qnumMatch at h
  simp only [Bool.and_eq_true, Bool.not_eq_true'] at h
  obtain ⟨hne, hm⟩ := h
  obtain ⟨t0, ht0⟩ := (List.takeWhile_prefix (l := s) (p := Char.isDigit))
  set ds := s.takeWhile Char.isDigit with hds
  have hdrop : s.drop ds.length = t0 := by
    rw [← ht0, List.drop_left]
  rw [hdrop] at hm
  have hdsne : ds ≠ [] := by
    intro hnil
    simp [List.isEmpty_iff, hnil] at hne
  have hdsall : ∀ c ∈ ds, Char.isDigit c = true := fun c hc => List.mem_takeWhile_imp hc
  cases t0 with
  | nil => simp at hm
  | cons a t1 =>
    simp only [decide_eq_true_eq] at hm
    subst hm
    exact ⟨ds, t1, by rw [← ht0], hdsne, hdsall⟩

theorem digit_ne_nl (c : Char) (hc : Char.isDigit c = true) : (c = '\n') = False := by
  simp only [eq_iff_iff, iff_false]
  intro hq
  subst hq
  cases hc

theorem splitQBoundary_tail_qnum : ∀ s : Str, ∀ p ∈ (splitQBoundary s).tail,
    qnumMatch p = true := by
  intro s
  induction s with
  | nil => intro p hp; simp [splitQBoundary] at hp
  | cons c rest ih =>
    intro p hp
    simp only [splitQBoundary] at hp
    by_cases hcond : c = '\n' ∧ qnumSpMatch rest = true
    · rw [if_pos hcond] at hp
      simp only [List.tail_cons] at hp
      cases hsp : splitQBoundary rest with
      | nil => exact absurd hsp (splitQBoundary_ne_nil _)
      | cons h0 t0 =>
        rw [hsp] at hp
        rcases List.mem_cons.mp hp with h | h
        · subst h
          obtain ⟨ds, w, t, hrest, hdsne, hdsall, hw⟩ := qnumSpMatch_shape rest hcond.2
          have hfree : ∀ d ∈ ds ++ ['.'], (d = '\n') = False := by
            intro d hd
            rcases List.mem_append.mp hd with h2 | h2
            · exact digit_ne_nl d (hdsall d h2)
            · simp at h2
              subst h2
              simp
          have hhead := splitQBoundary_head_prefix (ds ++ ['.']) hfree (w :: t)
          have hrest2 : rest = (ds ++ ['.']) ++ (w :: t) := by
            rw [hrest]
            simp
          rw [← hrest2] at hhead
          rw [hsp] at hhead
          simp only [List.headI] at hhead
          rw [hhead, List.append_assoc]
          exact qnumMatch_of_shape ds _ hdsne hdsall
        · exact ih p (by rw [hsp]; exact h)
    · rw [if_neg hcond] at hp
      cases hsp : splitQBoundary rest with
      | nil => exact absurd hsp (splitQBoundary_ne_nil _)
      | cons h0 t0 =>
        rw [hsp] at hp
        simp only [List.tail_cons] at hp
        exact ih p (by rw [hsp]; exact hp)

/-- C6 (amended): the splitters drop whitespace-only spans (every returned
span is nonempty and already stripped), and every span after the first
starts at the question-number pattern; but text preceding the first
question-number match is not discarded: it is kept as the leading span, so
only the spans after the first are guaranteed to start at a
question-number pattern.  bi_handler.split_mcq_blocks has the same body as
ai_handler.split_mcqs. -/
theorem C6_split_mcqs_spans :
    (∀ raw : Str, ∀ p ∈ split_mcqs raw, p ≠ [] ∧ pyStrip p = p) ∧
    (∀ raw : Str, ∀ p ∈ (split_mcqs raw).drop 1, qnumMatch p = true) ∧
    (∀ text : Str, split_mcq_blocks text = split_mcqs text) := by
  refine ⟨?_, ?_, fun text => rfl⟩
  · intro raw p hp
    unfold split_mcqs at hp
    have hmem := List.mem_of_mem_filter hp
    have hne := List.of_mem_filter hp
    simp only [decide_eq_true_eq] at hne
    rw [List.mem_map] at hmem
    rcases hmem with ⟨q, hq, rfl⟩
    exact ⟨by simpa using hne, pyStrip_idem q⟩
  · intro raw p hp
    unfold split_mcqs at hp
    cases hsp : splitQBoundary raw with
    | nil => exact absurd hsp (splitQBoundary_ne_nil _)
    | cons h0 t0 =>
      rw [hsp] at hp
      simp only [List.map_cons] at hp
      have hptail : p ∈ (t0.map pyStrip).filter (fun p => p ≠ []) := by
        by_cases hkeep : (pyStrip h0 ≠ [])
        · rw [List.filter_cons_of_pos (by simpa using hkeep)] at hp
          simpa using hp
        · rw [List.filter_cons_of_neg (by simpa using hkeep)] at hp
          exact List.mem_of_mem_drop hp
      have hmem := List.mem_of_mem_filter hptail
      rw [List.mem_map] at hmem
      rcases hmem with ⟨q, hq, rfl⟩
      have hqn : qnumMatch q = true := by
        apply splitQBoundary_tail_qnum raw
        rw [hsp]
        simpa using hq
      obtain ⟨ds, r, hshape, hdsne, hdsall⟩ := qnumMatch_shape q hqn
      obtain ⟨r2, hr2⟩ := qnumMatch_pyStrip q ds r hshape hdsne hdsall
      rw [hr2]
      exact qnumMatch_of_shape ds r2 hdsne hdsall

/-- Concrete raw text with a preamble line before the first question. -/
def c6input : Str :=
  ('I' :: 'n' :: 't' :: 'r' :: 'o' :: []) ++ '\n' ::
    ('1' :: '.' :: ' ' :: 'Q' :: [])

/-- C6 counterexample: the preamble before the first question-number match
is returned as the first span (it is not discarded), and that span does
not start at a question-number pattern, contradicting the claim. -/
theorem C6_preamble_not_discarded :
    split_mcqs c6input =
      [('I' :: 'n' :: 't' :: 'r' :: 'o' :: []), ('1' :: '.' :: ' ' :: 'Q' :: [])] ∧
    qnumMatch ('I' :: 'n' :: 't' :: 'r' :: 'o' :: []) = false := by
  constructor
  · decide
  · decide

/-- C6 witness: the amended statement applied to the concrete input. -/
theorem C6_split_mcqs_spans_witness :
    (('1' :: '.' :: ' ' :: 'Q' :: []) ≠ [] ∧
      pyStrip ('1' :: '.' :: ' ' :: 'Q' :: []) = ('1' :: '.' :: ' ' :: 'Q' :: [])) ∧
    qnumMatch ('1' :: '.' :: ' ' :: 'Q' :: []) = true := by
  constructor
  · exact C6_split_mcqs_spans.1 c6input ('1' :: '.' :: ' ' :: 'Q' :: []) (by decide)
  · exact C6_split_mcqs_spans.2.1 c6input ('1' :: '.' :: ' ' :: 'Q' :: []) (by decide)

/-- Leftmost match of the answer-mark regex of
ai_handler_3.detect_correct_answer: an uppercase option marker followed,
on the same line (the dot of the pattern does not match newlines), by the
tick glyph; the captured group is the letter at the leftmost matching
start position. -/
def tickSearch : Str → Option Char
  | [] => none
  | c :: rest =>
    if c = '(' then
      match rest with
      | x :: ')' :: rest2 =>
        if (x = 'A' ∨ x = 'B' ∨ x = 'C' ∨ x = 'D') ∧
            '✅' ∈ rest2.takeWhile (fun d => d != '\n') then some x
        else tickSearch rest
      | _ => tickSearch rest
    else tickSearch rest

/-- Consume an expected literal, returning the remainder. -/
def stripLit : Str → Str → Option Str
  | [], s => some s
  | c :: cs, d :: ds => if d = c then stripLit cs ds else none
  | _ :: _, [] => none

/-- Tail of the textual-declaration regex after the group alternation:
optional whitespace then a captured uppercase letter. -/
def afterIsColon (r : Str) : Option Char :=
  match r.dropWhile isPyWs with
  | x :: _ => if x = 'A' ∨ x = 'B' ∨ x = 'C' ∨ x = 'D' then some x else none
  | [] => none

/-- Anchored match of the textual-declaration regex of
ai_handler_3.detect_correct_answer (correct answer is or colon, any case
on the two initials, arbitrary whitespace runs) at the start of s. -/
def textualAt (s : Str) : Option Char :=
  match s with
  | c0 :: rest =>
    if c0 = 'C' ∨ c0 = 'c' then
      match stripLit ('o' :: 'r' :: 'r' :: 'e' :: 'c' :: 't' :: []) rest with
      | none => none
      | some r1 =>
        match r1.dropWhile isPyWs with
        | a0 :: r3 =>
          if a0 = 'A' ∨ a0 = 'a' then
            match stripLit ('n' :: 's' :: 'w' :: 'e' :: 'r' :: []) r3 with
            | none => none
            | some r4 =>
              match r4.dropWhile isPyWs with
              | 'i' :: 's' :: r6 => afterIsColon r6
              | ':' :: r6 => afterIsColon r6
              | _ => none
          else none
        | [] => none
    else none
  | [] => none

/-- Leftmost search for the textual declaration. -/
def textualSearch : Str → Option Char
  | [] => none
  | c :: rest =>
    match textualAt (c :: rest) with
    | some x => some x
    | none => textualSearch rest

/-- Index of the last character different from a newline, used to model
the backtracking of the greedy whitespace star against the dot-plus group
when the option-text regex reaches the end of input. -/
def lastNonNl (ws : Str) : Option Nat :=
  match ws.reverse.findIdx? (fun c => c != '\n') with
  | some i => some (ws.length - 1 - i)
  | none => none

/-- Capture of the whitespace-star dot-plus part of the option-line
findall pattern starting right after the marker: consume whitespace
greedily, then capture up to the end of the line; when only whitespace
remains, back off just enough for the dot-plus to match one non-newline
character. -/
def optCapture (rest : Str) : Option (Str × Str) :=
  let r2 := rest.dropWhile isPyWs
  match r2 with
  | _ :: _ =>
    some (r2.takeWhile (fun d => d != '\n'), r2.dropWhile (fun d => d != '\n'))
  | [] =>
    let ws := rest.takeWhile isPyWs
    match lastNonNl ws with
    | some k =>
      some ((ws.drop k).takeWhile (fun d => d != '\n'),
        (ws.drop k).dropWhile (fun d => d != '\n'))
    | none => none

theorem optCapture_rem_le (rest : Str) (txt rem : Str)
    (h : optCapture rest = some (txt, rem)) : rem.length ≤ rest.length := by
  unfold optCapture at h
  cases hr2 : rest.dropWhile isPyWs with
  | cons a b =>
    rw [hr2] at h
    simp only [Option.some.injEq, Prod.mk.injEq] at h
    obtain ⟨_, h2⟩ := h
    subst h2
    calc ((a :: b).dropWhile (fun d => d != '\n')).length
        ≤ (a :: b).length := (List.dropWhile_sublist _).length_le
      _ = (rest.dropWhile isPyWs).length := by rw [hr2]
      _ ≤ rest.length := (List.dropWhile_sublist _).length_le
  | nil =>
    rw [hr2] at h
    simp only at h
    cases hk : lastNonNl (rest.takeWhile isPyWs) with
    | none => rw [hk] at h; cases h
    | some k =>
      rw [hk] at h
      simp only [Option.some.injEq, Prod.mk.injEq] at h
      obtain ⟨_, h2⟩ := h
      subst h2
      calc (((rest.takeWhile isPyWs).drop k).dropWhile (fun d => d != '\n')).length
          ≤ ((rest.takeWhile isPyWs).drop k).length := (List.dropWhile_sublist _).length_le
        _ ≤ (rest.takeWhile isPyWs).length := by
            rw [List.length_drop]
            omega
        _ ≤ rest.length := (List.takeWhile_sublist _).length_le

/-- re.findall of the option pattern, written with an explicit fuel that
starts at the length of the block so the recursion is structural; every
step consumes at least one character, so the fuel never runs out before
the block does. -/
def findOptionsF : Nat → Str → List (Char × Str)
  | 0, _ => []
  | Nat.succ fuel, s =>
    match s with
    | '(' :: x :: ')' :: rest =>
      if x = 'A' ∨ x = 'B' ∨ x = 'C' ∨ x = 'D' then
        match optCapture rest with
        | some (txt, rem) => (x, txt) :: findOptionsF fuel rem
        | none => findOptionsF fuel (x :: ')' :: rest)
      else findOptionsF fuel (x :: ')' :: rest)
    | _ :: rest => findOptionsF fuel rest
    | [] => []

/-- re.findall of the option pattern over the block: non-overlapping
leftmost matches of marker plus captured (and later stripped) text. -/
def findOptions (s : Str) : List (Char × Str) := findOptionsF s.length s

/-- Anchored match of the explanation regex (Ex: then whitespace star then
a dotall dot-plus capture running to the end of the block). -/
def exSearchAt (s : Str) : Option Str :=
  match s with
  | 'E' :: 'x' :: ':' :: rest =>
    match rest.dropWhile isPyWs with
    | c :: r => some (c :: r)
    | [] =>
      match rest with
      | [] => none
      | c2 :: r2 => some [(c2 :: r2).getLast (by simp)]
  | _ => none

/-- Leftmost search for the explanation marker. -/
def exSearch : Str → Option Str
  | [] => none
  | c :: rest =>
    match exSearchAt (c :: rest) with
    | some e => some e
    | none => exSearch rest

/-- ASCII lowering standing for Python str.lower (all block text the
theorems evaluate is ASCII or caseless script). -/
def pyLower (s : Str) : Str := s.map Char.toLower

/-- Python dict insertion order semantics: an existing key keeps its
position and gets the new value, a new key is appended. -/
def pyDictInsert (d : List (Char × Str)) (k : Char) (v : Str) : List (Char × Str) :=
  if d.any (fun p => p.1 = k) then d.map (fun p => if p.1 = k then (k, v) else p)
  else d ++ [(k, v)]

/-- The options dict of detect_correct_answer: fold the findall matches,
stripping each captured text at insertion. -/
def buildOptions (l : List (Char × Str)) : List (Char × Str) :=
  l.foldl (fun d p => pyDictInsert d p.1 (pyStrip p.2)) []

/-- The word-overlap score of detect_correct_answer: the number of
distinct words of the lowered option text that also occur in the
explanation word set, guarded by both strings being non-empty. -/
def overlapScore (v ex : Str) : Nat :=
  if v ≠ [] ∧ ex ≠ [] then
    (((pyWords (pyLower v)).dedup).filter (fun w => decide (w ∈ pyWords ex))).length
  else 0

/-- The best-candidate fold of detect_correct_answer: strictly greater
scores win, so the first option attaining the maximum is kept. -/
def bestFold (ex : Str) : (Option Char × Nat) → List (Char × Str) → (Option Char × Nat)
  | best, [] => best
  | best, (k, v) :: rest =>
    if overlapScore v ex > best.2 then bestFold ex (some k, overlapScore v ex) rest
    else bestFold ex best rest

/-- ai_handler_3.detect_correct_answer: explicit tick first, then the
textual declaration, then the fuzzy explanation overlap; the empty-string
result of the source is modelled as none. -/
def detect_correct_answer (block : Str) : Option Char :=
  match tickSearch block with
  | some l => some l
  | none =>
    match textualSearch block with
    | some l => some l
    | none =>
      let options := buildOptions (findOptions block)
      let ex :=
        match exSearch block with
        | some e => pyLower (pyStrip e)
        | none => []
      let best := bestFold ex (none, 0) options
      if best.2 > 0 then best.1 else none

theorem bestFold_spec (ex : Str) : ∀ (l : List (Char × Str)) (b : Option Char) (s : Nat),
    (bestFold ex (b, s) l = (b, s) ∧ ∀ p ∈ l, overlapScore p.2 ex ≤ s) ∨
    (∃ i : Fin l.length,
      bestFold ex (b, s) l = (some (l.get i).1, overlapScore (l.get i).2 ex) ∧
      s < overlapScore (l.get i).2 ex ∧
      (∀ j : Fin l.length, j < i → overlapScore (l.get j).2 ex < overlapScore (l.get i).2 ex) ∧
      (∀ j : Fin l.length, overlapScore (l.get j).2 ex ≤ overlapScore (l.get i).2 ex)) := by
  intro l
  induction l with
  | nil =>
    intro b s
    left
    exact ⟨rfl, by simp⟩
  | cons p rest ih =>
    intro b s
    obtain ⟨k, v⟩ := p
    by_cases hgt : overlapScore v ex > s
    · right
      have hstep : bestFold ex (b, s) ((k, v) :: rest) =
          bestFold ex (some k, overlapScore v ex) rest := by
        simp [bestFold, hgt]
      rcases ih (some k) (overlapScore v ex) with ⟨heq, hall⟩ | ⟨i, heq, hs, hbefore, hall⟩
      · refine ⟨⟨0, by simp⟩, ?_, ?_, ?_, ?_⟩
        · rw [hstep, heq]
          rfl
        · simpa using hgt
        · intro j hj
          exact absurd hj (by simp [Fin.lt_def])
        · intro j
          cases j using Fin.cases with
          | zero => simp
          | succ j2 =>
            exact hall (rest.get j2) (rest.get_mem j2.1 j2.2)
      · refine ⟨i.succ, ?_, ?_, ?_, ?_⟩
        · rw [hstep, heq]
          rfl
        · exact lt_trans hgt hs
        · intro j hj
          cases j using Fin.cases with
          | zero =>
            exact hs
          | succ j2 =>
            have : j2 < i := by
              rw [Fin.lt_def] at hj ⊢
              simpa using hj
            exact hbefore j2 this
        · intro j
          cases j using Fin.cases with
          | zero =>
            exact le_of_lt hs
          | succ j2 =>
            exact hall j2
    · have hstep : bestFold ex (b, s) ((k, v) :: rest) = bestFold ex (b, s) rest := by
        simp [bestFold, hgt]
      push_neg at hgt
      rcases ih b s with ⟨heq, hall⟩ | ⟨i, heq, hs, hbefore, hall⟩
      · left
        refine ⟨by rw [hstep, heq], ?_⟩
        intro q hq
        rcases List.mem_cons.mp hq with h2 | h2
        · subst h2
          exact hgt
        · exact hall q h2
      · right
        refine ⟨i.succ, ?_, ?_, ?_, ?_⟩
        · rw [hstep, heq]
          rfl
        · exact hs
        · intro j hj
          cases j using Fin.cases with
          | zero =>
            exact lt_of_le_of_lt hgt hs
          | succ j2 =>
            have : j2 < i := by
              rw [Fin.lt_def] at hj ⊢
              simpa using hj
            exact hbefore j2 this
        · intro j
          cases j using Fin.cases with
          | zero =>
            exact le_trans hgt (le_of_lt hs)
          | succ j2 =>
            exact hall j2

/-- C7 (amended): detect_correct_answer follows the priority cascade with
first match winning (explicit tick, then textual declaration, then fuzzy
overlap), but the fuzzy stage does not require a strictly largest
intersection: it selects the first option attaining the maximum non-zero
score, so ties are resolved in favour of the earliest option instead of
falling through. -/
theorem C7_detect_cascade :
    (∀ (block : Str) (L : Char), tickSearch block = some L →
      detect_correct_answer block = some L) ∧
    (∀ (block : Str) (L : Char), tickSearch block = none → textualSearch block = some L →
      detect_correct_answer block = some L) ∧
    (∀ block : Str, tickSearch block = none → textualSearch block = none →
      (detect_correct_answer block = none ∧
        ∀ p ∈ buildOptions (findOptions block),
          overlapScore p.2
            (match exSearch block with
             | some e => pyLower (pyStrip e)
             | none => []) = 0) ∨
      (∃ i : Fin (buildOptions (findOptions block)).length,
        detect_correct_answer block = some ((buildOptions (findOptions block)).get i).1 ∧
        0 < overlapScore ((buildOptions (findOptions block)).get i).2
          (match exSearch block with
           | some e => pyLower (pyStrip e)
           | none => []) ∧
        (∀ j : Fin (buildOptions (findOptions block)).length, j < i →
          overlapScore ((buildOptions (findOptions block)).get j).2
              (match exSearch block with
               | some e => pyLower (pyStrip e)
               | none => []) <
            overlapScore ((buildOptions (findOptions block)).get i).2
              (match exSearch block with
               | some e => pyLower (pyStrip e)
               | none => [])) ∧
        (∀ j : Fin (buildOptions (findOptions block)).length,
          overlapScore ((buildOptions (findOptions block)).get j).2
              (match exSearch block with
               | some e => pyLower (pyStrip e)
               | none => []) ≤
            overlapScore ((buildOptions (findOptions block)).get i).2
              (match exSearch block with
               | some e => pyLower (pyStrip e)
               | none => [])))) := by
  refine ⟨?_, ?_, ?_⟩
  · intro block L h
    unfold detect_correct_answer
    rw [h]
  · intro block L h1 h2
    unfold detect_correct_answer
    rw [h1, h2]
  · intro block h1 h2
    unfold detect_correct_answer
    rw [h1, h2]
    set opts := buildOptions (findOptions block) with hopts
    set ex : Str :=
      (match exSearch block with
       | some e => pyLower (pyStrip e)
       | none => []) with hex
    rcases bestFold_spec ex opts none 0 with ⟨heq, hall⟩ | ⟨i, heq, hs, hbefore, hall⟩
    · left
      constructor
      · simp [heq]
      · intro p hp
        exact Nat.le_zero.mp (hall p hp)
    · right
      refine ⟨i, ?_, hs, hbefore, hall⟩
      simp only [heq]
      rw [if_pos hs]

/-- Concrete block with no tick and no textual declaration where options
A and B tie on the fuzzy overlap score. -/
def c7input : Str :=
  "1. Q\n(A) apple\n(B) apple pie\n(C) pear\n(D) kiwi\nEx: apple".toList

/-- C7 counterexample: the fuzzy stage returns option A although its
word-overlap with the explanation (one word) is not strictly largest:
option B ties with the same score, so by the claim the stage should have
fallen through. -/
theorem C7_fuzzy_tie_counterexample :
    detect_correct_answer c7input = some 'A' ∧
    tickSearch c7input = none ∧
    textualSearch c7input = none ∧
    buildOptions (findOptions c7input) =
      [('A', "apple".toList), ('B', "apple pie".toList),
       ('C', "pear".toList), ('D', "kiwi".toList)] ∧
    overlapScore ("apple".toList) ("apple".toList) = 1 ∧
    overlapScore ("apple pie".toList) ("apple".toList) = 1 := by
  refine ⟨by decide, by decide, by decide, by decide, by decide, by decide⟩

/-- Concrete block carrying an explicit tick on option B together with a
conflicting textual declaration naming C. -/
def c7tick : Str :=
  "1. Q\n(A) three\n(B) four ✅\nCorrect answer is C".toList

/-- C7 witness: the cascade applied to concrete blocks: the tick wins over
the textual declaration, and the textual declaration is used when no tick
is present. -/
theorem C7_detect_cascade_witness :
    detect_correct_answer c7tick = some 'B' ∧
    detect_correct_answer ("Correct answer: D".toList) = some 'D' := by
  constructor
  · exact C7_detect_cascade.1 c7tick 'B' (by decide)
  · exact C7_detect_cascade.2.1 ("Correct answer: D".toList) 'D' (by decide) (by decide)

/-- The glyph class removed from option lines by
helpers.enforce_correct_answer_format (the two emoji-style check marks in
the source carry a variation selector, which appears in the class as its
own character). -/
def isTickChar (c : Char) : Bool :=
  c = '✅' || c = '✓' || c = '✔' || c = '️' || c = '☑' ||
    c = '🔴' || c = '🟢' || c = '⭐' || c = '🎯'

/-- re.sub of the glyph class with the empty string. -/
def removeTicks (s : Str) : Str := s.filter (fun c => !isTickChar c)

/-- The lowercase d-option marker. -/
def dTag : Str := ['d', ')']

/-- One loop step of helpers.enforce_correct_answer_format: strip the
line; keep blanks; reset the per-question flag at question lines; on
option lines remove all glyphs and append one tick to the first d-option
of the question; pass other lines through. -/
def cafStep (flag : Bool) (line0 : Str) : Bool × Str :=
  let line := pyStrip line0
  if line.isEmpty then (flag, line)
  else if qnumMatch line then (false, line)
  else if optMatch line then
    let clean_line := pyStrip (removeTicks line)
    if flag = false ∧ pyStartsWith dTag line = true then
      (true, clean_line ++ (' ' :: '✅' :: []))
    else (flag, clean_line)
  else (flag, line)

/-- The loop of helpers.enforce_correct_answer_format over the lines,
threading the per-question flag. -/
def cafLines (flag : Bool) : List Str → List Str
  | [] => []
  | l :: ls => (cafStep flag l).2 :: cafLines (cafStep flag l).1 ls

/-- One loop step of helpers.add_missing_ticks: question lines arm the
in-question flag; the first d-option while armed receives a tick and
disarms it. -/
def amtStep (inq : Bool) (line : Str) : Bool × Str :=
  if qnumMatch line then (true, line)
  else if optMatch line = true ∧ inq = true then
    if pyStartsWith dTag line then (false, line ++ (' ' :: '✅' :: []))
    else (inq, line)
  else (inq, line)

/-- The loop of helpers.add_missing_ticks. -/
def amtLines (inq : Bool) : List Str → List Str
  | [] => []
  | l :: ls => (amtStep inq l).2 :: amtLines (amtStep inq l).1 ls

/-- helpers.add_missing_ticks. -/
def add_missing_ticks (lines : List Str) : List Str := amtLines false lines

/-- helpers.enforce_correct_answer_format: run the main loop, and when no
line of the result carries the glyph anywhere, run add_missing_ticks as
the terminal fallback; then rejoin. -/
def enforce_correct_answer_format (text : Str) : Str :=
  let fl := cafLines false (splitLines text)
  let fl2 := if fl.any (fun l => l.contains '✅') then fl else add_missing_ticks fl
  joinLines fl2

theorem cafLines_append (xs : List Str) : ∀ (b : Bool) (ys : List Str),
    cafLines b (xs ++ ys) = cafLines b xs ++ cafLines (xs.foldl (fun f l => (cafStep f l).1) b) ys := by
  induction xs with
  | nil => intro b ys; simp [cafLines]
  | cons x rest ih =>
    intro b ys
    simp only [List.cons_append, cafLines, List.foldl_cons]
    rw [show rest.append ys = rest ++ ys from rfl, ih]

theorem cafLines_length (ls : List Str) : ∀ b : Bool, (cafLines b ls).length = ls.length := by
  induction ls with
  | nil => intro b; rfl
  | cons l rest ih =>
    intro b
    simp [cafLines, ih]

theorem count_tick_clean (line : Str) : (pyStrip (removeTicks line)).count '✅' = 0 := by
  rw [List.count_eq_zero]
  intro hmem
  have h1 : '✅' ∈ removeTicks line := mem_pyStrip _ _ hmem
  unfold removeTicks at h1
  have := List.of_mem_filter h1
  simp [isTickChar] at this

theorem optMatch_shape2 (s : Str) (h : optMatch s = true) :
    ∃ a r, s = a :: ')' :: r ∧ (a = 'a' ∨ a = 'b' ∨ a = 'c' ∨ a = 'd') ∧
      isPyWs a = false := by
  obtain ⟨a, r, rfl, ha⟩ := optMatch_shape s h
  refine ⟨a, r, rfl, ha, ?_⟩
  rcases ha with h2 | h2 | h2 | h2 <;> subst h2 <;> decide

theorem optMatch_clean (s : Str) (h : optMatch s = true) :
    optMatch (pyStrip (removeTicks s)) = true := by
  obtain ⟨a, r, rfl, ha, hnws⟩ := optMatch_shape2 s h
  have hfa : isTickChar a = false := by
    rcases ha with h2 | h2 | h2 | h2 <;> subst h2 <;> decide
  have hshape : removeTicks (a :: ')' :: r) = a :: ')' :: removeTicks r := by
    simp only [removeTicks, List.filter_cons, hfa]
    norm_num
    decide
  rw [hshape]
  unfold pyStrip
  rw [pyLStrip_eq_self_of_head _ a (by simp) hnws]
  obtain ⟨r2, hr2⟩ := pyRStrip_cons_shape ')' (removeTicks r) (by decide)
  rw [show a :: ')' :: removeTicks r = [a] ++ ')' :: removeTicks r from rfl]
  rw [pyRStrip_append_of_ne [a] _ (by rw [hr2]; simp), hr2]
  obtain ⟨b, hb⟩ : ∃ b, (a = b) ∧ (b = 'a' ∨ b = 'b' ∨ b = 'c' ∨ b = 'd') := ⟨a, rfl, ha⟩
  simp only [optMatch]
  rcases ha with h2 | h2 | h2 | h2 <;> subst h2 <;> simp

theorem optMatch_append_tick (s t : Str) (h : optMatch s = true) :
    optMatch (s ++ t) = true := by
  obtain ⟨a, r, rfl, ha⟩ := optMatch_shape s h
  simp only [List.cons_append, optMatch]
  rcases ha with h2 | h2 | h2 | h2 <;> subst h2 <;> simp

/-- An output line that is an option line carrying the glyph. -/
def tickedOpt (l : Str) : Bool := optMatch l && decide (0 < l.count '✅')

/-- An input line that is a stripped lowercase d-option line. -/
def isDOptLine (l : Str) : Bool := optMatch (pyStrip l) && pyStartsWith dTag (pyStrip l)

theorem cafStep_flag_true (l : Str) (hq : qnumMatch (pyStrip l) = false) :
    (cafStep true l).1 = true := by
  unfold cafStep
  by_cases h1 : (pyStrip l).isEmpty
  · simp [h1]
  · simp only [h1, Bool.false_eq_true, if_false, hq]
    by_cases h2 : optMatch (pyStrip l)
    · simp [h2]
    · simp [h2]

theorem cafStep_true_snd (x : Str) (hq : qnumMatch (pyStrip x) = false) :
    ((cafStep true x).2 = pyStrip x ∧ optMatch (pyStrip x) = false) ∨
    (cafStep true x).2 = pyStrip (removeTicks (pyStrip x)) := by
  unfold cafStep
  by_cases h1 : (pyStrip x).isEmpty
  · left
    refine ⟨by simp [h1], ?_⟩
    rw [List.isEmpty_iff.mp h1]
    rfl
  · by_cases h2 : optMatch (pyStrip x)
    · right
      simp only [h1, Bool.false_eq_true, if_false, hq, h2, if_true]
      rw [if_neg (by simp)]
    · left
      refine ⟨?_, by simpa using h2⟩
      simp [h1, hq, h2]

theorem cafLines_true_opt_clean : ∀ seg : List Str,
    (∀ l ∈ seg, qnumMatch (pyStrip l) = false) →
    ∀ l ∈ cafLines true seg, optMatch l = true → l.count '✅' = 0 := by
  intro seg
  induction seg with
  | nil => intro _ l hl; simp [cafLines] at hl
  | cons x rest ih =>
    intro hseg l hl hopt
    have hq := hseg x (by simp)
    simp only [cafLines] at hl
    rw [cafStep_flag_true x hq] at hl
    rcases List.mem_cons.mp hl with h | h
    · subst h
      rcases cafStep_true_snd x hq with ⟨hsnd, hno⟩ | hsnd
      · rw [hsnd] at hopt
        rw [hopt] at hno
        cases hno
      · rw [hsnd]
        exact count_tick_clean (pyStrip x)
    · exact ih (fun l2 hl2 => hseg l2 (List.mem_cons_of_mem _ hl2)) l h hopt

theorem countP_tickedOpt_zero (out : List Str)
    (h : ∀ l ∈ out, optMatch l = true → l.count '✅' = 0) :
    out.countP tickedOpt = 0 := by
  rw [List.countP_eq_zero]
  intro l hl
  unfold tickedOpt
  by_cases h2 : optMatch l
  · have := h l hl h2
    simp [h2, this]
  · simp [h2]

theorem cafLines_false_seg : ∀ seg : List Str,
    (∀ l ∈ seg, qnumMatch (pyStrip l) = false) →
    (cafLines false seg).countP tickedOpt = (if seg.any isDOptLine then 1 else 0) ∧
    (∀ l ∈ cafLines false seg, optMatch l = true → l.count '✅' ≤ 1) := by
  intro seg
  induction seg with
  | nil => intro _; exact ⟨rfl, by intro l hl; simp [cafLines] at hl⟩
  | cons x rest ih =>
    intro hseg
    have hq := hseg x (by simp)
    have ih2 := ih (fun l2 hl2 => hseg l2 (List.mem_cons_of_mem _ hl2))
    by_cases h1 : (pyStrip x).isEmpty
    · have hstep : cafStep false x = (false, pyStrip x) := by
        unfold cafStep
        simp [h1]
      have hdx : isDOptLine x = false := by
        unfold isDOptLine
        rw [List.isEmpty_iff.mp h1]
        simp [optMatch]
      simp only [cafLines, hstep]
      constructor
      · rw [List.countP_cons, List.any_cons, hdx]
        have htx : tickedOpt (pyStrip x) = false := by
          unfold tickedOpt
          rw [List.isEmpty_iff.mp h1]
          simp [optMatch]
        simp only [htx, if_false, Bool.false_or]
        simpa using ih2.1
      · intro l hl hopt
        rcases List.mem_cons.mp hl with h | h
        · subst h
          rw [List.isEmpty_iff.mp h1] at hopt
          cases hopt
        · exact ih2.2 l h hopt
    · by_cases h2 : optMatch (pyStrip x)
      · by_cases h3 : pyStartsWith dTag (pyStrip x)
        · have hstep : cafStep false x =
              (true, pyStrip (removeTicks (pyStrip x)) ++ (' ' :: '✅' :: [])) := by
            unfold cafStep
            simp only [h1, Bool.false_eq_true, if_false, hq, h2, if_true, h3]
            simp
          have hdx : isDOptLine x = true := by
            unfold isDOptLine
            rw [h2, h3]
            rfl
          have hcleanopt : optMatch (pyStrip (removeTicks (pyStrip x)) ++ (' ' :: '✅' :: [])) = true :=
            optMatch_append_tick _ _ (optMatch_clean _ h2)
          have hcount1 : (pyStrip (removeTicks (pyStrip x)) ++ (' ' :: '✅' :: [])).count '✅' = 1 := by
            rw [List.count_append, count_tick_clean]
            rfl
          have htrue := cafLines_true_opt_clean rest
            (fun l2 hl2 => hseg l2 (List.mem_cons_of_mem _ hl2))
          simp only [cafLines, hstep]
          constructor
          · rw [List.countP_cons, List.any_cons, hdx]
            have htx : tickedOpt (pyStrip (removeTicks (pyStrip x)) ++ (' ' :: '✅' :: [])) = true := by
              unfold tickedOpt
              rw [hcleanopt, hcount1]
              rfl
            rw [htx, countP_tickedOpt_zero _ htrue]
            simp
          · intro l hl hopt
            rcases List.mem_cons.mp hl with h | h
            · subst h
              rw [hcount1]
            · rw [htrue l h hopt]
              omega
        · have hstep : cafStep false x = (false, pyStrip (removeTicks (pyStrip x))) := by
            unfold cafStep
            simp only [h1, Bool.false_eq_true, if_false, hq, h2, if_true]
            rw [if_neg (by simp [h3])]
          have hdx : isDOptLine x = false := by
            unfold isDOptLine
            simp [h3]
          simp only [cafLines, hstep]
          constructor
          · rw [List.countP_cons, List.any_cons, hdx]
            have htx : tickedOpt (pyStrip (removeTicks (pyStrip x))) = false := by
              unfold tickedOpt
              rw [count_tick_clean]
              simp
            simp only [htx, if_false, Bool.false_or]
            simpa using ih2.1
          · intro l hl hopt
            rcases List.mem_cons.mp hl with h | h
            · subst h
              rw [count_tick_clean]
              exact Nat.zero_le 1
            · exact ih2.2 l h hopt
      · have hstep : cafStep false x = (false, pyStrip x) := by
          unfold cafStep
          simp [h1, hq, h2]
        have hdx : isDOptLine x = false := by
          unfold isDOptLine
          simp [h2]
        simp only [cafLines, hstep]
        constructor
        · rw [List.countP_cons, List.any_cons, hdx]
          have htx : tickedOpt (pyStrip x) = false := by
            unfold tickedOpt
            simp [h2]
          simp only [htx, if_false, Bool.false_or]
          simpa using ih2.1
        · intro l hl hopt
          rcases List.mem_cons.mp hl with h | h
          · subst h
            exact absurd hopt h2
          · exact ih2.2 l h hopt

theorem qnumMatch_ne_nil (s : Str) (h : qnumMatch s = true) : s.isEmpty = false := by
  obtain ⟨ds, r, rfl, hne, _⟩ := qnumMatch_shape s h
  cases ds with
  | nil => exact absurd rfl hne
  | cons a t => rfl

theorem mem_cafStep_snd (f : Bool) (l : Str) (c : Char) (hc : c ∈ (cafStep f l).2) :
    c ∈ l ∨ c = ' ' ∨ c = '✅' := by
  dsimp only [cafStep] at hc
  split at hc
  · exact Or.inl (mem_pyStrip _ _ hc)
  · split at hc
    · exact Or.inl (mem_pyStrip _ _ hc)
    · split at hc
      · split at hc
        · rcases List.mem_append.mp hc with h2 | h2
          · exact Or.inl (mem_pyStrip _ _ (List.mem_of_mem_filter (mem_pyStrip _ _ h2)))
          · simp at h2
            rcases h2 with h2 | h2
            · exact Or.inr (Or.inl h2)
            · exact Or.inr (Or.inr h2)
        · exact Or.inl (mem_pyStrip _ _ (List.mem_of_mem_filter (mem_pyStrip _ _ hc)))
      · exact Or.inl (mem_pyStrip _ _ hc)

theorem cafLines_no_nl : ∀ (ls : List Str) (b : Bool),
    (∀ l ∈ ls, ∀ c ∈ l, (c = '\n') = False) →
    ∀ l ∈ cafLines b ls, ∀ c ∈ l, (c = '\n') = False := by
  intro ls
  induction ls with
  | nil => intro b _ l hl; simp [cafLines] at hl
  | cons x rest ih =>
    intro b h l hl c hc
    simp only [cafLines] at hl
    rcases List.mem_cons.mp hl with h2 | h2
    · subst h2
      rcases mem_cafStep_snd b x c hc with h3 | h3 | h3
      · exact h x (by simp) c h3
      · subst h3; simp
      · subst h3; simp
    · exact ih (cafStep b x).1 (fun l2 hl2 => h l2 (List.mem_cons_of_mem _ hl2)) l h2 c hc

/-- C1 (amended): for every input text and every question segment of it
(a question-number line followed by lines up to the next question-number
line) that contains a stripped lowercase d-option line, the corresponding
segment of the output of enforce_correct_answer_format has exactly one
option line carrying the answer-mark glyph, and no option line of the
segment carries more than one glyph (stray marks are stripped from the
other lowercase option lines).  Question segments without a d-option line
can come out with no mark at all, and uppercase-format option lines are
passed through untouched, which is what the counterexample exhibits. -/
theorem C1_one_mark_per_d_segment
    (t : Str) (pre : List Str) (q : Str) (seg post : List Str)
    (hsplit : splitLines t = pre ++ q :: (seg ++ post))
    (hq : qnumMatch (pyStrip q) = true)
    (hseg : ∀ l ∈ seg, qnumMatch (pyStrip l) = false)
    (hd : seg.any isDOptLine = true) :
    ∃ outPre outPost : List Str,
      splitLines (enforce_correct_answer_format t) =
        outPre ++ pyStrip q :: (cafLines false seg ++ outPost) ∧
      outPre.length = pre.length ∧
      (cafLines false seg).countP tickedOpt = 1 ∧
      (∀ l ∈ cafLines false seg, optMatch l = true → l.count '✅' ≤ 1) := by
  obtain ⟨hcount, hle⟩ := cafLines_false_seg seg hseg
  rw [hd, if_pos rfl] at hcount
  set fpre := pre.foldl (fun f l => (cafStep f l).1) false with hfpre
  have hqstep : cafStep fpre q = (false, pyStrip q) := by
    dsimp only [cafStep]
    rw [qnumMatch_ne_nil _ hq]
    simp [hq]
  have hfl : cafLines false (splitLines t) =
      cafLines false pre ++ pyStrip q ::
        (cafLines false seg ++
          cafLines (seg.foldl (fun f l => (cafStep f l).1) false) post) := by
    rw [hsplit, cafLines_append]
    congr 1
    simp only [cafLines, hqstep]
    rw [cafLines_append]
  have htickmem : ∃ l ∈ cafLines false seg, l.contains '✅' = true := by
    have hpos : 0 < (cafLines false seg).countP tickedOpt := by omega
    rw [List.countP_pos] at hpos
    obtain ⟨l, hl, hp⟩ := hpos
    unfold tickedOpt at hp
    simp only [Bool.and_eq_true, decide_eq_true_eq] at hp
    refine ⟨l, hl, ?_⟩
    have := List.count_pos_iff_mem.mp hp.2
    simpa [List.contains] using this
  have hgate : (cafLines false (splitLines t)).any (fun l => l.contains '✅') = true := by
    rw [List.any_eq_true]
    obtain ⟨l, hl, hcont⟩ := htickmem
    refine ⟨l, ?_, hcont⟩
    rw [hfl]
    exact List.mem_append.mpr (Or.inr (List.mem_cons_of_mem _
      (List.mem_append.mpr (Or.inl hl))))
  have henf : enforce_correct_answer_format t =
      joinLines (cafLines false (splitLines t)) := by
    dsimp only [enforce_correct_answer_format]
    rw [hgate]
    simp
  have hnl : ∀ l ∈ cafLines false (splitLines t), ∀ c ∈ l, (c = '\n') = False :=
    cafLines_no_nl (splitLines t) false (mem_splitLines_no_nl t)
  have hne : cafLines false (splitLines t) ≠ [] := by
    rw [hfl]
    simp
  have hsplit2 : splitLines (enforce_correct_answer_format t) =
      cafLines false (splitLines t) := by
    rw [henf]
    exact splitLines_joinLines _ hne hnl
  refine ⟨cafLines false pre,
    cafLines (seg.foldl (fun f l => (cafStep f l).1) false) post, ?_,
    cafLines_length pre false, hcount, hle⟩
  rw [hsplit2, hfl]

/-- Concrete text whose only question block has three lowercase options
and no d-option line. -/
def c1bad : Str := "1. Q\na) x\nb) y\nc) z".toList

/-- C1 counterexample: the enforcement pass leaves a question block with
zero marked option lines (the input passes through unchanged and contains
no glyph at all), contradicting the exactly-one-mark claim. -/
theorem C1_no_mark_counterexample :
    enforce_correct_answer_format c1bad = c1bad ∧
    (enforce_correct_answer_format c1bad).count '✅' = 0 := by
  constructor
  · decide
  · decide

/-- Concrete question segment with stray marks on options a and b and a
final d-option. -/
def c1seg : List Str := ["a) x ✅".toList, "b) y ✅".toList, "d) w".toList]

/-- Concrete text formed of one question line followed by that segment. -/
def c1input : Str := "1. Q\na) x ✅\nb) y ✅\nd) w".toList

/-- C1 witness: the amended statement applied to the concrete text. -/
theorem C1_one_mark_per_d_segment_witness :
    ∃ outPre outPost : List Str,
      splitLines (enforce_correct_answer_format c1input) =
        outPre ++ pyStrip ("1. Q".toList) :: (cafLines false c1seg ++ outPost) ∧
      outPre.length = ([] : List Str).length ∧
      (cafLines false c1seg).countP tickedOpt = 1 ∧
      (∀ l ∈ cafLines false c1seg, optMatch l = true → l.count '✅' ≤ 1) :=
  C1_one_mark_per_d_segment c1input [] ("1. Q".toList) c1seg []
    (by decide) (by decide) (by decide) (by decide)

/-- A parsed question record shared by ai_handler.shorten_and_compact and
bi_handler.process_block. -/
structure McqStruct where
  question : Str
  options : List Str
  explanation : Str
deriving DecidableEq

/-- The scanning loop of ai_handler.shorten_and_compact over the
non-blank right-stripped lines: the first numbered line becomes the
question, uppercase option lines are collected with ticks removed, an
explanation marker line sets the explanation. -/
def sacScan : List Str → Str → List Str → Str → (Str × List Str × Str)
  | [], q, opts, ex => (q, opts, ex)
  | ln :: rest, q, opts, ex =>
    if qnumSpMatch ln = true ∧ q = [] then sacScan rest (pyStrip ln) opts ex
    else if uoptMatch ln then
      sacScan rest q (opts ++ [pyStrip (ln.filter (fun c => c != '✅'))]) ex
    else if pyStartsWith ['e', 'x', ':'] (pyLower ln) then
      sacScan rest q opts ((exTag ++ [' ']) ++ pyStrip (ln.drop 3))
    else sacScan rest q opts ex

/-- The question fallback of ai_handler.shorten_and_compact: the first
line that is neither an option line nor an explanation line. -/
def sacFallback : List Str → Str
  | [] => []
  | ln :: rest =>
    if ¬ (uoptMatch ln = true) ∧ ¬ (pyStartsWith ['e', 'x', ':'] (pyLower ln) = true) then
      pyStrip ln
    else sacFallback rest

/-- ai_handler.shorten_and_compact: parse one block, trim fields, and
reject blocks without a question line or with fewer than four option
lines. -/
def shorten_and_compact (block : Str) (bilingual : Bool) : Option McqStruct :=
  let lines := ((splitLines block).filter (fun l => pyStrip l ≠ [])).map pyRStrip
  let scanned := sacScan lines [] [] []
  let q1 := if scanned.1 = [] then sacFallback lines else scanned.1
  let question_line := q1.take 240
  let options := scanned.2.1.map
    (fun o => normalize_option_line o (if bilingual then 100 else 70))
  let explanation := scanned.2.2.take 160
  if question_line = [] ∨ options.length < 4 then none
  else some ⟨question_line, options, explanation⟩

/-- The number of uppercase option lines of a block, measured on the same
processed line list the parser scans. -/
def optionLineCount (block : Str) : Nat :=
  (((splitLines block).filter (fun l => pyStrip l ≠ [])).map pyRStrip).countP uoptMatch

theorem qnumSp_not_uopt (ln : Str) (h : qnumSpMatch ln = true) : uoptMatch ln = false := by
  obtain ⟨ds, w, t, rfl, hne, hds, _⟩ := qnumSpMatch_shape ln h
  cases ds with
  | nil => exact absurd rfl hne
  | cons a t2 =>
    have ha := hds a (by simp)
    have : (a = '(') = False := by
      simp only [eq_iff_iff, iff_false]
      intro hq
      subst hq
      cases ha
    cases t2 with
    | nil => simp only [List.cons_append, List.nil_append, uoptMatch]; simp_all
    | cons b t3 => simp only [List.cons_append, uoptMatch]; simp_all

theorem sacScan_opts_length : ∀ (lines : List Str) (q : Str) (opts : List Str) (ex : Str),
    (sacScan lines q opts ex).2.1.length = opts.length + lines.countP uoptMatch := by
  intro lines
  induction lines with
  | nil => intro q opts ex; simp [sacScan]
  | cons ln rest ih =>
    intro q opts ex
    simp only [sacScan]
    by_cases h1 : qnumSpMatch ln = true ∧ q = []
    · rw [if_pos h1, ih]
      rw [List.countP_cons, qnumSp_not_uopt ln h1.1]
      simp
    · rw [if_neg h1]
      by_cases h2 : uoptMatch ln
      · rw [if_pos h2, ih]
        rw [List.countP_cons, h2]
        simp
        omega
      · rw [if_neg h2]
        by_cases h3 : pyStartsWith ['e', 'x', ':'] (pyLower ln)
        · rw [if_pos h3, ih]
          rw [List.countP_cons]
          simp [h2]
        · rw [if_neg h3, ih]
          rw [List.countP_cons]
          simp [h2]

theorem ite_none_some {α : Type} {c : Prop} [Decidable c] {x s : α}
    (h : (if c then none else some x) = some s) : ¬c ∧ x = s := by
  by_cases hc : c
  · rw [if_pos hc] at h
    cases h
  · rw [if_neg hc] at h
    injection h with h2
    exact ⟨hc, h2⟩

/-- C8 (amended): in the /ai pipeline a raw block with fewer than four
uppercase option lines is rejected by shorten_and_compact (it returns
none), and every record that reaches the assembly stage through the
filtering loop has at least four options, so such a block never reaches
the /ai output; the /bi pipeline however preserves the sanitized original
block text when its parser rejects a block, which the counterexample
exhibits. -/
theorem C8_ai_drops_short_blocks :
    (∀ (block : Str) (bilingual : Bool), optionLineCount block < 4 →
      shorten_and_compact block bilingual = none) ∧
    (∀ (raw : Str) (bilingual : Bool) (s : McqStruct),
      s ∈ (split_mcqs raw).filterMap (fun b => shorten_and_compact b bilingual) →
      4 ≤ s.options.length) := by
  constructor
  · intro block bilingual hcount
    unfold shorten_and_compact
    have hlen := sacScan_opts_length
      (((splitLines block).filter (fun l => pyStrip l ≠ [])).map pyRStrip) [] [] []
    rw [if_pos]
    right
    rw [List.length_map, hlen]
    unfold optionLineCount at hcount
    simpa [List.countP_map] using hcount
  · intro raw bilingual s hs
    rw [List.mem_filterMap] at hs
    obtain ⟨b, _, hb⟩ := hs
    unfold shorten_and_compact at hb
    obtain ⟨hcond, hb2⟩ := ite_none_some hb
    push_neg at hcond
    subst hb2
    simpa using hcond.2

/-- C8 witness: the amended statement applied to a concrete three-option
block and to a concrete raw text. -/
theorem C8_ai_drops_short_blocks_witness :
    shorten_and_compact ("5. Q\n(A) x\n(B) y\n(C) z".toList) false = none ∧
    (∀ s : McqStruct,
      s ∈ (split_mcqs ("5. Q\n(A) x\n(B) y\n(C) z".toList)).filterMap
        (fun b => shorten_and_compact b false) → 4 ≤ s.options.length) := by
  constructor
  · exact C8_ai_drops_short_blocks.1 ("5. Q\n(A) x\n(B) y\n(C) z".toList) false (by decide)
  · intro s hs
    exact C8_ai_drops_short_blocks.2 ("5. Q\n(A) x\n(B) y\n(C) z".toList) false s hs

/-- bi_handler.extract_lines: non-empty lines of a block, right-stripped
(str.splitlines is modelled as the newline split; the dropped trailing
empty piece is removed by the filter either way). -/
def extract_lines (block : Str) : List Str :=
  ((splitLines block).filter (fun l => pyStrip l ≠ [])).map pyRStrip

/-- bi_handler.detect_existing_tick_option: leftmost uppercase option
marker followed by a tick with no newline, carriage return, or other tick
in between (the negated class of the source pattern). -/
def detect_existing_tick_option : Str → Option Char
  | [] => none
  | c :: rest =>
    if c = '(' then
      match rest with
      | x :: ')' :: rest2 =>
        if (x = 'A' ∨ x = 'B' ∨ x = 'C' ∨ x = 'D') ∧
            ((rest2.dropWhile (fun d => !(d = '\n' || d = '\r' || d = '✅'))).head? = some '✅')
        then some x
        else detect_existing_tick_option rest
      | _ => detect_existing_tick_option rest
    else detect_existing_tick_option rest

/-- bi_handler.is_mostly_english: the float comparison of the source
(count of ASCII letters over the non-space length compared with 0.05) is
modelled by the exact rational cross-multiplication. -/
def is_mostly_english (s : Str) : Bool :=
  let eng := (s.filter (fun c => ('A' ≤ c && c ≤ 'Z') || ('a' ≤ c && c ≤ 'z'))).length
  let nonspace := (s.filter (fun c => c != ' ')).length
  eng > 0 && 20 * eng > max 1 nonspace

/-- A character of the Gujarati Unicode block. -/
def isGujChar (c : Char) : Bool := '઀' ≤ c && c ≤ '૿'

/-- Presence of a Gujarati character (the script-range regex of the
source). -/
def hasGujarati (s : Str) : Bool := s.any isGujChar

/-- The English grammar keyword set of bi_handler. -/
def ENGLISH_GRAMMAR_KEYWORDS : List Str :=
  ["english grammar", "grammar", "parts of speech", "noun", "pronoun", "adjective",
   "verb", "adverb", "preposition", "conjunction", "interjection",
   "articles", "tenses", "active passive", "direct indirect",
   "sentence correction", "error detection", "error spotting", "fill in the blanks",
   "cloze", "verb form", "tense", "error", "spotting"].map String.toList

/-- The Gujarati grammar keyword set of bi_handler. -/
def GUJARATI_GRAMMAR_KEYWORDS : List Str :=
  ["ગુજરાતી વ્યાકરણ", "વ્યાકરણ", "વાક્ય", "કારક", "સમાસ", "વિભક્તિ",
   "શબ્દવિચાર", "સંધી", "અલંકાર", "છંદ", "છંદો", "પર્યાય", "વિધિ"].map String.toList

/-- The per-block mode of bi_handler. -/
inductive BiMode where
  | english_grammar : BiMode
  | gujarati_grammar : BiMode
  | bilingual : BiMode
deriving DecidableEq

/-- Python substring membership test. -/
def strContains (pat : Str) : Str → Bool
  | [] => pat.isEmpty
  | c :: rest => pat.isPrefixOf (c :: rest) || strContains pat rest

/-- bi_handler.detect_mode_for_block (the iteration over the keyword sets
returns on the first hit, which is membership of any keyword). -/
def detect_mode_for_block (block : Str) (language_arg : Str) : BiMode :=
  let low := pyLower block
  if ENGLISH_GRAMMAR_KEYWORDS.any (fun kw => strContains kw low) then BiMode.english_grammar
  else if hasGujarati block then
    if GUJARATI_GRAMMAR_KEYWORDS.any (fun kw => strContains kw block) then
      BiMode.gujarati_grammar
    else BiMode.bilingual
  else if is_mostly_english block then BiMode.bilingual
  else BiMode.bilingual

/-- bi_handler.normalize_option_prefix: optional leading whitespace, an
uppercase marker, then the stripped remainder of the line. -/
def normalize_option_prefix (op_line : Str) : Option (Char × Str) :=
  match op_line.dropWhile isPyWs with
  | '(' :: l :: ')' :: rest =>
    if l = 'A' ∨ l = 'B' ∨ l = 'C' ∨ l = 'D' then
      some (l, pyStrip (rest.dropWhile isPyWs))
    else none
  | _ => none

/-- Python falsy-or against a default: a failed call (none) or an empty
translation falls back to the default. -/
def pyOr (o : Option Str) (dflt : Str) : Str :=
  match o with
  | some t => if t = [] then dflt else t
  | none => dflt

/-- Python falsy-or against the empty string. -/
def pyOrEmpty (o : Option Str) : Str :=
  match o with
  | some t => t
  | none => []

/-- re.sub of the anchored explanation marker with optional trailing
whitespace. -/
def stripExPre (s : Str) : Str :=
  if pyStartsWith exTag s then (s.drop 3).dropWhile isPyWs else s

/-- re.sub of the anchored digits-dot-whitespace question prefix. -/
def stripQnumPre (ln : Str) : Str :=
  if qnumSpMatch ln then
    ((ln.drop (ln.takeWhile Char.isDigit).length).drop 1).dropWhile isPyWs
  else ln

/-- The line-scanning loop of bi_handler.process_block: numbered lines
contribute question parts with the prefix removed, uppercase option lines
are collected verbatim, the explanation marker line sets the explanation,
and other lines extend the question only while no option has been seen. -/
def pbScan : List Str → List Str → List Str → Str → (List Str × List Str × Str)
  | [], qls, opts, ex => (qls, opts, ex)
  | ln :: rest, qls, opts, ex =>
    if qnumSpMatch ln then pbScan rest (qls ++ [pyStrip (stripQnumPre ln)]) opts ex
    else if uoptMatch ln then pbScan rest qls (opts ++ [pyStrip ln]) ex
    else if pyStartsWith ['e', 'x', ':'] (pyLower ln) then
      pbScan rest qls opts ((exTag ++ [' ']) ++ pyStrip (ln.drop 3))
    else if opts ≠ [] then pbScan rest qls opts ex
    else pbScan rest (qls ++ [pyStrip ln]) opts ex

/-- The slash separator used by bilingual composition. -/
def slashSep : Str := [' ', '/', ' ']

/-- The bilingual section of bi_handler.process_block, applied to the raw
question, the parsed options, and the explanation line, with the
translation call passed in as a function: Gujarati fields are paired with
their translation when one comes back non-empty, and the explanation
appends the separator and the translation unconditionally. -/
def compose_bilingual (tr : Str → Option Str) (raw_question : Str)
    (raw_options : List (Char × Str)) (explanation_line : Str) :
    Str × List Str × Str :=
  let has_guj_chars := hasGujarati raw_question
  let guj_q := if has_guj_chars then raw_question else []
  let en_q := if has_guj_chars then pyOrEmpty (tr raw_question) else raw_question
  let question_out :=
    if guj_q ≠ [] ∧ en_q ≠ [] then (guj_q ++ slashSep ++ en_q).take 240
    else if guj_q ≠ [] then guj_q.take 240
    else en_q.take 240
  let options_out := raw_options.map (fun p =>
    let has_guj := hasGujarati p.2
    let guj_op := if has_guj then p.2 else []
    let en_op := if has_guj then pyOrEmpty (tr p.2) else p.2
    let combined :=
      if guj_op ≠ [] ∧ en_op ≠ [] then
        '(' :: p.1 :: ')' :: ' ' :: (guj_op ++ slashSep ++ en_op)
      else if guj_op ≠ [] then '(' :: p.1 :: ')' :: ' ' :: guj_op
      else '(' :: p.1 :: ')' :: ' ' :: en_op
    combined.take 100)
  let explanation_out :=
    if explanation_line ≠ [] then
      if hasGujarati explanation_line then
        let en_ex := pyOrEmpty (tr (stripExPre explanation_line))
        ((exTag ++ [' ']) ++ stripExPre explanation_line ++ slashSep ++ en_ex).take 160
      else explanation_line.take 160
    else []
  (question_out, options_out, explanation_out)

/-- The gujarati-grammar section of bi_handler.process_block. -/
def compose_gujarati (raw_question : Str) (raw_options : List (Char × Str))
    (explanation_line : Str) : Str × List Str × Str :=
  (raw_question.take 240,
   raw_options.map (fun p =>
     '(' :: p.1 :: ')' :: ' ' :: pyStrip (p.2.filter (fun c => c != '✅'))),
   explanation_line)

/-- The english-grammar section of bi_handler.process_block. -/
def compose_english (tr : Str → Option Str) (raw_question : Str)
    (raw_options : List (Char × Str)) (explanation_line : Str) :
    Str × List Str × Str :=
  let question_en :=
    if is_mostly_english raw_question then raw_question
    else pyOr (tr raw_question) raw_question
  (question_en.take 240,
   raw_options.map (fun p =>
     '(' :: p.1 :: ')' :: ' ' ::
       (if is_mostly_english p.2 then p.2 else pyOr (tr p.2) p.2)),
   explanation_line)

/-- The tick re-insertion loop at the end of bi_handler.process_block. -/
def reinsertTick (existing_tick : Option Char) (options_out : List Str) : List Str :=
  match existing_tick with
  | none => options_out
  | some tickL =>
    options_out.map (fun opt =>
      match normalize_option_prefix opt with
      | some p =>
        if p.1 = tickL then
          if '✅' ∈ opt then opt else opt ++ [' ', '✅']
        else pyStrip (opt.filter (fun c => c != '✅'))
      | none => pyStrip (opt.filter (fun c => c != '✅')))

/-- bi_handler.process_block with the translation call passed in as a
function (translate_to_english_gemini is an external Gemini call that
yields either a line of text or none on failure); the source is an async
function that awaits nothing and raises nothing on this path. -/
def process_block (tr : Str → Option Str) (block : Str)
    (bilingual_flag_global : Bool) (language_arg : Str) : Option McqStruct :=
  let lines := extract_lines block
  let scanned := pbScan lines [] [] []
  let question_lines := scanned.1
  let option_lines := scanned.2.1
  let explanation_line := scanned.2.2
  if question_lines = [] ∨ option_lines.length < 4 then none
  else
    let raw_question := List.intercalate slashSep question_lines
    let raw_options := option_lines.filterMap normalize_option_prefix
    if raw_options.length < 4 then none
    else
      let existing_tick := detect_existing_tick_option block
      let mode :=
        if language_arg ≠ [] ∧ pyLower (pyStrip language_arg) = ['b', 'i'] then
          BiMode.bilingual
        else detect_mode_for_block block language_arg
      let composed :=
        match mode with
        | BiMode.gujarati_grammar =>
          compose_gujarati raw_question raw_options explanation_line
        | BiMode.english_grammar =>
          compose_english tr raw_question raw_options explanation_line
        | BiMode.bilingual =>
          compose_bilingual tr raw_question raw_options explanation_line
      let options_out := reinsertTick existing_tick composed.2.1
      if options_out.length < 4 then none
      else some ⟨composed.1, options_out, composed.2.2⟩

/-- Index of the last newline at position one or later in a whitespace
run, modelling where the greedy whitespace-plus of the sanitizer regex
ends. -/
def lastNlFrom1 (run : Str) : Option Nat :=
  match (run.drop 1).reverse.findIdx? (fun c => c = '\n') with
  | some i => some (1 + ((run.drop 1).length - 1 - i))
  | none => none

/-- re.sub of whitespace-plus-newline with a newline, written with a
length fuel so the recursion is structural (each step consumes at least
one character). -/
def subWsNlF : Nat → Str → Str
  | 0, s => s
  | Nat.succ fuel, s =>
    match s with
    | [] => []
    | c :: rest =>
      if isPyWs c then
        match lastNlFrom1 ((c :: rest).takeWhile isPyWs) with
        | some j => '\n' :: subWsNlF fuel ((c :: rest).drop (j + 1))
        | none => c :: subWsNlF fuel rest
      else c :: subWsNlF fuel rest

/-- The sanitizer applied by bi_command to blocks its parser rejected. -/
def pySubWsNl (s : Str) : Str := subWsNlF s.length s

/-- A translator standing for a failed external call. -/
def trNone : Str → Option Str := fun _ => none

/-- The conversion loop of bi_handler.bi_command: each block is either
rebuilt from its parsed record or, when process_block rejects it, kept as
its sanitized original text. -/
def biConvertBlocks (tr : Str → Option Str) : Nat → List Str → List Str
  | _, [] => []
  | i, blk :: rest =>
    (match process_block tr blk false [] with
     | none => pyStrip (pySubWsNl blk)
     | some struct =>
       joinLines ((Nat.toDigits 10 i ++ ['.', ' '] ++ struct.question) ::
         (struct.options ++
           (if struct.explanation ≠ [] then [struct.explanation] else [])))) ::
      biConvertBlocks tr (i + 1) rest

/-- The converted-blocks list of bi_command for a whole uploaded text. -/
def bi_convert (tr : Str → Option Str) (text : Str) : List Str :=
  biConvertBlocks tr 1 (split_mcq_blocks text)

/-- Concrete raw block with only three option lines. -/
def c8blk : Str := "5. Q\n(A) x\n(B) y\n(C) z".toList

/-- C8 counterexample: in the /bi pipeline the three-option block is
rejected by process_block yet its text is preserved verbatim in the
conversion output, so it does reach the assembled output, contradicting
the claim. -/
theorem C8_bi_preserves_rejected_block :
    process_block trNone c8blk false [] = none ∧
    bi_convert trNone c8blk = [c8blk] ∧
    optionLineCount c8blk = 3 := by
  refine ⟨by decide, by decide, by decide⟩

/-- C9 (amended): under a translator that fails or returns empty for
every input, the bilingual composer (a total function, so it cannot
raise) degrades the question and every option to the source text alone
with no separator appended; the explanation however is composed as source
plus the dangling separator, so the source-slash-translated form with an
empty right part does appear for the explanation field. -/
theorem C9_bilingual_degrade (tr : Str → Option Str)
    (htr : ∀ s2 : Str, pyOrEmpty (tr s2) = []) :
    ∀ (rq : Str) (opts : List (Char × Str)) (ex : Str),
      hasGujarati rq = true →
      (compose_bilingual tr rq opts ex).1 = rq.take 240 ∧
      (compose_bilingual tr rq opts ex).2.1 =
        opts.map (fun p => ('(' :: p.1 :: ')' :: ' ' :: p.2).take 100) ∧
      (ex ≠ [] → hasGujarati ex = true →
        (compose_bilingual tr rq opts ex).2.2 =
          ((exTag ++ [' ']) ++ stripExPre ex ++ slashSep).take 160) ∧
      (ex ≠ [] → hasGujarati ex = false →
        (compose_bilingual tr rq opts ex).2.2 = ex.take 160) := by
  intro rq opts ex hguj
  refine ⟨?_, ?_, ?_, ?_⟩
  · dsimp only [compose_bilingual]
    rw [hguj]
    simp only [if_true, htr]
    have hrqne : rq ≠ [] := by
      intro hnil
      rw [hnil] at hguj
      cases hguj
    rw [if_neg (by simp), if_pos hrqne]
  · dsimp only [compose_bilingual]
    apply List.map_congr_left
    intro p _
    by_cases hg : hasGujarati p.2
    · simp only [hg, if_true, htr]
      by_cases hp2 : p.2 = []
      · rw [hp2]
        simp
      · rw [if_neg (by simp), if_pos hp2]
    · simp only [hg, Bool.false_eq_true, if_false]
      by_cases hp2 : p.2 = []
      · rw [hp2]
        simp
      · rw [if_neg (by simp [hp2])]
        rw [if_neg (by simp)]
  · intro hne hgex
    dsimp only [compose_bilingual]
    rw [if_pos hne, hgex]
    simp [htr]
  · intro hne hgex
    dsimp only [compose_bilingual]
    rw [if_pos hne, hgex]
    simp

/-- Concrete Gujarati block with four options and an explanation. -/
def c9blk : Str :=
  "1. પ્રશ્ન\n(A) એક\n(B) બે\n(C) ત્રણ\n(D) ચાર\nEx: સમજૂતી".toList

/-- C9 counterexample: with a failed translation, process_block composes
the explanation as the source text followed by the dangling separator
(the composed field is not the source text alone, and the
source-slash-translated form appears with an empty right part), while
question and options come out source-only. -/
theorem C9_dangling_separator_counterexample :
    process_block trNone c9blk false [] =
      some ⟨"પ્રશ્ન".toList,
        ["(A) એક".toList, "(B) બે".toList, "(C) ત્રણ".toList, "(D) ચાર".toList],
        "Ex: સમજૂતી / ".toList⟩ ∧
    ("Ex: સમજૂતી / ".toList).reverse.take 3 = [' ', '/', ' '] := by
  refine ⟨by decide, by decide⟩

/-- C9 witness: the amended statement applied to concrete Gujarati
fields and the failing translator. -/
theorem C9_bilingual_degrade_witness :
    (compose_bilingual trNone ("પ્રશ્ન".toList) [('A', "એક".toList)]
        ("Ex: સમજૂતી".toList)).1 = ("પ્રશ્ન".toList).take 240 ∧
    (compose_bilingual trNone ("પ્રશ્ન".toList) [('A', "એક".toList)]
        ("Ex: સમજૂતી".toList)).2.2 =
      ((exTag ++ [' ']) ++ stripExPre ("Ex: સમજૂતી".toList) ++ slashSep).take 160 := by
  have h := C9_bilingual_degrade trNone (fun s2 => rfl) ("પ્રશ્ન".toList)
    [('A', "એક".toList)] ("Ex: સમજૂતી".toList) (by decide)
  exact ⟨h.1, h.2.2.1 (by decide) (by decide)⟩

theorem digit_not_ws (c : Char) (hc : Char.isDigit c = true) : isPyWs c = false := by
  cases hq : isPyWs c
  · rfl
  · rw [ws_not_digit c hq] at hc
    cases hc

theorem pyStrip_cons_ws (c : Char) (z : Str) (hc : isPyWs c = true) :
    pyStrip (c :: z) = pyStrip z := by
  unfold pyStrip pyLStrip
  rw [List.dropWhile_cons, if_pos hc]

theorem pyStrip_ne_nil_of_mem (s : Str) (c : Char) (hc : c ∈ s)
    (hws : isPyWs c = false) : pyStrip s ≠ [] := by
  unfold pyStrip
  apply pyRStrip_ne_nil_of_mem _ c _ hws
  have hsplit := List.takeWhile_append_dropWhile (p := isPyWs) (l := s)
  rw [← hsplit] at hc
  rcases List.mem_append.mp hc with h | h
  · have := List.mem_takeWhile_imp h
    rw [hws] at this
    cases this
  · exact h

theorem pyStrip_head?_not_ws (s : Str) (hne : pyStrip s ≠ []) :
    ∃ c t, pyStrip s = c :: t ∧ isPyWs c = false := by
  cases hs : pyStrip s with
  | nil => exact absurd hs hne
  | cons c t => exact ⟨c, t, rfl, pyStrip_head_not s c t hs⟩

theorem pyStrip_getLast_not_ws (s : Str) (hne : pyStrip s ≠ []) :
    ∃ c t, pyStrip s = t ++ [c] ∧ isPyWs c = false := by
  rcases List.eq_nil_or_concat (pyStrip s) with h | ⟨t, c, hs⟩
  · exact absurd h hne
  · rw [List.concat_eq_append] at hs
    exact ⟨c, t, hs, pyStrip_last_not s c t hs⟩

theorem pyStrip_isEmpty_false_of_mem (s : Str) (c : Char) (hc : c ∈ s)
    (hws : isPyWs c = false) : (pyStrip s).isEmpty = false := by
  have := pyStrip_ne_nil_of_mem s c hc hws
  cases hs : pyStrip s with
  | nil => exact absurd hs this
  | cons a t => rfl

theorem enfLine_strip_invariant (l : Str) : enfLine (pyStrip l) = enfLine l := by
  unfold enfLine
  rw [pyStrip_idem]

theorem enfLine_of_qnum (l : Str) (hq : qnumMatch (pyStrip l) = true) :
    enfLine l = if (pyStrip l).length > 4096 then (pyStrip l).take 4096 else pyStrip l := by
  dsimp only [enfLine]
  rw [qnumMatch_ne_nil _ hq, hq]
  simp

theorem enfLine_of_other (l : Str) (hb : (pyStrip l).isEmpty = false)
    (hq : qnumMatch (pyStrip l) = false) (ho : optMatch (pyStrip l) = false)
    (he : pyStartsWith exTag (pyStrip l) = false) : enfLine l = pyStrip l := by
  dsimp only [enfLine]
  rw [hb, hq, ho, he]
  simp

theorem enfLine_blank (l : Str) (hb : (pyStrip l).isEmpty = true) :
    enfLine l = pyStrip l := by
  dsimp only [enfLine]
  rw [hb]
  simp

theorem punct_not_ws (c : Char) (hc : isPunctChar c = true) : isPyWs c = false := by
  unfold isPunctChar at hc
  simp only [Bool.or_eq_true, decide_eq_true_eq] at hc
  rcases hc with (h | h) | h <;> subst h <;> decide

theorem optMatch_cons (a : Char) (z : Str) (ha : a = 'a' ∨ a = 'b' ∨ a = 'c' ∨ a = 'd') :
    optMatch (a :: ')' :: z) = true := by
  rcases ha with h | h | h | h <;> subst h <;> rfl

theorem pyStartsWith_exTag_append (z : Str) : pyStartsWith exTag (exTag ++ z) = true := by
  unfold pyStartsWith exTag
  simp [List.isPrefixOf_iff_prefix]

theorem take_append_len (x y : Str) (n : Nat) (hx : x.length = n) : (x ++ y).take n = x := by
  subst hx
  exact List.take_left x y

theorem drop_append_len (x y : Str) (n : Nat) (hx : x.length = n) : (x ++ y).drop n = y := by
  subst hx
  exact List.drop_left x y

theorem pyEndsWithPunct_shape (s : Str) (h : pyEndsWithPunct s = true) :
    ∃ c, s.getLast? = some c ∧ isPunctChar c = true := by
  unfold pyEndsWithPunct at h
  cases hg : s.getLast? with
  | none => rw [hg] at h; cases h
  | some c => rw [hg] at h; exact ⟨c, rfl, h⟩

theorem getLast_append_right (x y : Str) (c : Char) (hy : y.getLast? = some c) :
    (x ++ y).getLast? = some c := by
  rcases List.eq_nil_or_concat y with h | ⟨v, d, hv⟩
  · rw [h] at hy; cases hy
  · rw [List.concat_eq_append] at hv
    rw [hv, List.getLast?_concat] at hy
    rw [hv, ← List.append_assoc, List.getLast?_concat]
    exact hy

theorem enfLine_fix_of_eq (s : Str) (h1 : enfLine s = s) :
    enfLine (enfLine s) = enfLine s := by
  rw [h1]
  exact h1

theorem enfLine_idem_strip (s : Str) (hs : pyStrip s = s)
    (hq4096 : qnumMatch s = true → s.length ≤ 4096) :
    enfLine (enfLine s) = enfLine s := by
  by_cases hb : s.isEmpty = true
  · apply enfLine_fix_of_eq
    rw [enfLine_blank s (by rw [hs]; exact hb), hs]
  by_cases hq : qnumMatch s = true
  · apply enfLine_fix_of_eq
    have hle := hq4096 hq
    rw [enfLine_of_qnum s (by rw [hs]; exact hq), hs, if_neg (by omega)]
  by_cases ho : optMatch s = true
  · -- option branch
    by_cases hlen : s.length > 100
    · -- long option line
      obtain ⟨a, r, hsr, ha, hanws⟩ := optMatch_shape2 s ho
      have hsne : s ≠ [] := by
        intro h
        rw [h] at hb
        exact hb rfl
      obtain ⟨d, u, hsu, hdnws⟩ := pyStrip_getLast_not_ws s (by rw [hs]; exact hsne)
      rw [hs] at hsu
      have hulen : 3 ≤ u.length := by
        have := congrArg List.length hsu
        simp at this
        omega
      have hdrop3 : s.drop 3 = u.drop 3 ++ [d] := by
        rw [hsu, List.drop_append_eq_append_drop]
        have h0 : 3 - u.length = 0 := by omega
        rw [h0]
        rfl
      have htne : pyStrip (s.drop 3) ≠ [] := by
        apply pyStrip_ne_nil_of_mem (s.drop 3) d _ hdnws
        rw [hdrop3]
        simp
      have hs3 : (s.take 3).length = 3 := by
        rw [List.length_take]
        omega
      have htk3 : s.take 3 = a :: ')' :: r.take 1 := by rw [hsr]; rfl
      obtain ⟨c, t', htc, hcnws⟩ := pyStrip_head?_not_ws (s.drop 3) htne
      obtain ⟨e, v, htv, henws⟩ := pyStrip_getLast_not_ws (s.drop 3) htne
      by_cases ht97 : (pyStrip (s.drop 3)).length > 97
      · -- text over 97: ellipsis output
        have hout : enfLine s =
            s.take 3 ++ ((pyStrip (s.drop 3)).take 97 ++ ['.', '.', '.']) := by
          rw [enfLine_of_opt s (by rw [hs]; exact ho), hs, if_pos hlen, if_pos ht97]
        rw [hout]
        have hw97 : ((pyStrip (s.drop 3)).take 97).length = 97 := by
          rw [List.length_take]
          omega
        have hwhead : (s.take 3 ++ ((pyStrip (s.drop 3)).take 97 ++ ['.', '.', '.'])).head? =
            some a := by
          rw [htk3]
          rfl
        have hwlast : (s.take 3 ++ ((pyStrip (s.drop 3)).take 97 ++ ['.', '.', '.'])).getLast? =
            some '.' := by
          apply getLast_append_right
          apply getLast_append_right
          rfl
        have hwstrip : pyStrip (s.take 3 ++ ((pyStrip (s.drop 3)).take 97 ++ ['.', '.', '.'])) =
            s.take 3 ++ ((pyStrip (s.drop 3)).take 97 ++ ['.', '.', '.']) :=
          pyStrip_eq_self_of_ends _ a '.' hwhead hanws hwlast (by decide)
        have hwopt : optMatch (s.take 3 ++ ((pyStrip (s.drop 3)).take 97 ++ ['.', '.', '.'])) =
            true := by
          rw [htk3]
          exact optMatch_cons a _ ha
        rw [enfLine_of_opt _ (by rw [hwstrip]; exact hwopt), hwstrip]
        have hwlen : (s.take 3 ++ ((pyStrip (s.drop 3)).take 97 ++ ['.', '.', '.'])).length =
            103 := by
          rw [List.length_append, List.length_append, hs3, hw97]
          rfl
        rw [if_pos (by rw [hwlen]; decide)]
        rw [take_append_len _ _ 3 hs3, drop_append_len _ _ 3 hs3]
        have hinhead : ((pyStrip (s.drop 3)).take 97 ++ ['.', '.', '.']).head? = some c := by
          rw [htc]
          rfl
        have hinlast : ((pyStrip (s.drop 3)).take 97 ++ ['.', '.', '.']).getLast? = some '.' := by
          apply getLast_append_right
          rfl
        have hinstrip : pyStrip ((pyStrip (s.drop 3)).take 97 ++ ['.', '.', '.']) =
            (pyStrip (s.drop 3)).take 97 ++ ['.', '.', '.'] :=
          pyStrip_eq_self_of_ends _ c '.' hinhead hcnws hinlast (by decide)
        rw [hinstrip]
        have hinlen : ((pyStrip (s.drop 3)).take 97 ++ ['.', '.', '.']).length = 100 := by
          rw [List.length_append, hw97]
          rfl
        rw [if_pos (by rw [hinlen]; decide)]
        rw [take_append_len _ _ 97 hw97]
      · -- text within 97: plain output
        have hout : enfLine s = s.take 3 ++ pyStrip (s.drop 3) := by
          rw [enfLine_of_opt s (by rw [hs]; exact ho), hs, if_pos hlen, if_neg ht97]
        rw [hout]
        have hwhead : (s.take 3 ++ pyStrip (s.drop 3)).head? = some a := by
          rw [htk3]
          rfl
        have hwlast : (s.take 3 ++ pyStrip (s.drop 3)).getLast? = some e := by
          apply getLast_append_right
          rw [htv, List.getLast?_concat]
        have hwstrip : pyStrip (s.take 3 ++ pyStrip (s.drop 3)) =
            s.take 3 ++ pyStrip (s.drop 3) :=
          pyStrip_eq_self_of_ends _ a e hwhead hanws hwlast henws
        have hwopt : optMatch (s.take 3 ++ pyStrip (s.drop 3)) = true := by
          rw [htk3]
          exact optMatch_cons a _ ha
        rw [enfLine_of_opt _ (by rw [hwstrip]; exact hwopt), hwstrip]
        have hwlen : (s.take 3 ++ pyStrip (s.drop 3)).length = 3 + (pyStrip (s.drop 3)).length := by
          rw [List.length_append, hs3]
        rw [if_neg (by omega)]
    · apply enfLine_fix_of_eq
      rw [enfLine_of_opt s (by rw [hs]; exact ho), hs, if_neg hlen]
  by_cases he : pyStartsWith exTag s = true
  · -- explanation branch
    by_cases he200 : (pyStrip (s.drop 3)).length > 200
    · have hene : pyStrip (s.drop 3) ≠ [] := by
        intro h
        rw [h] at he200
        simp at he200
      obtain ⟨c, e', hec, hcnws⟩ := pyStrip_head?_not_ws (s.drop 3) hene
      have he1hd : (pyStrip (s.drop 3)).take 200 = c :: e'.take 199 := by
        rw [hec]
        rfl
      have he1len : ((pyStrip (s.drop 3)).take 200).length = 200 := by
        rw [List.length_take]
        omega
      cases hp : pyEndsWithPunct ((pyStrip (s.drop 3)).take 200) with
      | true =>
        obtain ⟨pc, hpc, hpcp⟩ := pyEndsWithPunct_shape _ hp
        have hout : enfLine s = exTag ++ [' '] ++ (pyStrip (s.drop 3)).take 200 := by
          rw [enfLine_of_ex s (by rw [hs]; exact he), hs, if_pos he200,
            if_neg (by rw [hp]; decide)]
        rw [hout]
        have hwhead : (exTag ++ [' '] ++ (pyStrip (s.drop 3)).take 200).head? = some 'E' := rfl
        have hwlast : (exTag ++ [' '] ++ (pyStrip (s.drop 3)).take 200).getLast? = some pc :=
          getLast_append_right _ _ pc hpc
        have hwstrip : pyStrip (exTag ++ [' '] ++ (pyStrip (s.drop 3)).take 200) =
            exTag ++ [' '] ++ (pyStrip (s.drop 3)).take 200 :=
          pyStrip_eq_self_of_ends _ 'E' pc hwhead (by decide) hwlast (punct_not_ws pc hpcp)
        have hwex : pyStartsWith exTag (exTag ++ [' '] ++ (pyStrip (s.drop 3)).take 200) =
            true := by
          rw [List.append_assoc]
          exact pyStartsWith_exTag_append _
        rw [enfLine_of_ex _ (by rw [hwstrip]; exact hwex), hwstrip]
        have hwd3 : (exTag ++ [' '] ++ (pyStrip (s.drop 3)).take 200).drop 3 =
            ' ' :: (pyStrip (s.drop 3)).take 200 := by
          rw [List.append_assoc]
          exact drop_append_len _ _ 3 rfl
        rw [hwd3, pyStrip_cons_ws ' ' _ (by decide)]
        have he1strip : pyStrip ((pyStrip (s.drop 3)).take 200) =
            (pyStrip (s.drop 3)).take 200 :=
          pyStrip_eq_self_of_ends _ c pc (by rw [he1hd]; rfl) hcnws hpc (punct_not_ws pc hpcp)
        rw [he1strip, if_neg (by rw [he1len]; decide)]
      | false =>
        have hout : enfLine s =
            exTag ++ [' '] ++ (pyRStrip ((pyStrip (s.drop 3)).take 200) ++ ['.']) := by
          rw [enfLine_of_ex s (by rw [hs]; exact he), hs, if_pos he200,
            if_pos (by rw [hp]; decide)]
        rw [hout]
        obtain ⟨r2, hr2⟩ := pyRStrip_cons_shape c (e'.take 199) hcnws
        have hr1hd : pyRStrip ((pyStrip (s.drop 3)).take 200) = c :: r2 := by
          rw [he1hd]
          exact hr2
        have hr1le : (pyRStrip ((pyStrip (s.drop 3)).take 200)).length ≤ 200 := by
          have := pyRStrip_length_le ((pyStrip (s.drop 3)).take 200)
          omega
        have hwhead : (exTag ++ [' '] ++ (pyRStrip ((pyStrip (s.drop 3)).take 200) ++ ['.'])).head? =
            some 'E' := rfl
        have hwlast : (exTag ++ [' '] ++ (pyRStrip ((pyStrip (s.drop 3)).take 200) ++ ['.'])).getLast? =
            some '.' := by
          apply getLast_append_right
          apply getLast_append_right
          rfl
        have hwstrip : pyStrip (exTag ++ [' '] ++ (pyRStrip ((pyStrip (s.drop 3)).take 200) ++ ['.'])) =
            exTag ++ [' '] ++ (pyRStrip ((pyStrip (s.drop 3)).take 200) ++ ['.']) :=
          pyStrip_eq_self_of_ends _ 'E' '.' hwhead (by decide) hwlast (by decide)
        have hwex : pyStartsWith exTag
            (exTag ++ [' '] ++ (pyRStrip ((pyStrip (s.drop 3)).take 200) ++ ['.'])) = true := by
          rw [List.append_assoc]
          exact pyStartsWith_exTag_append _
        rw [enfLine_of_ex _ (by rw [hwstrip]; exact hwex), hwstrip]
        have hwd3 : (exTag ++ [' '] ++ (pyRStrip ((pyStrip (s.drop 3)).take 200) ++ ['.'])).drop 3 =
            ' ' :: (pyRStrip ((pyStrip (s.drop 3)).take 200) ++ ['.']) := by
          rw [List.append_assoc]
          exact drop_append_len _ _ 3 rfl
        rw [hwd3, pyStrip_cons_ws ' ' _ (by decide)]
        have hintail : pyStrip (pyRStrip ((pyStrip (s.drop 3)).take 200) ++ ['.']) =
            pyRStrip ((pyStrip (s.drop 3)).take 200) ++ ['.'] := by
          apply pyStrip_eq_self_of_ends _ c '.'
          · rw [hr1hd]
            rfl
          · exact hcnws
          · rw [List.getLast?_concat]
          · decide
        rw [hintail]
        have hinlen : (pyRStrip ((pyStrip (s.drop 3)).take 200) ++ ['.']).length =
            (pyRStrip ((pyStrip (s.drop 3)).take 200)).length + 1 := by
          rw [List.length_append]
          rfl
        by_cases h201 : (pyRStrip ((pyStrip (s.drop 3)).take 200) ++ ['.']).length > 200
        · rw [if_pos h201]
          have hr200 : (pyRStrip ((pyStrip (s.drop 3)).take 200)).length = 200 := by omega
          have hre1 : pyRStrip ((pyStrip (s.drop 3)).take 200) = (pyStrip (s.drop 3)).take 200 := by
            have hpre := pyRStrip_prefix_rest ((pyStrip (s.drop 3)).take 200)
            have hjlen : ((((pyStrip (s.drop 3)).take 200).reverse.takeWhile isPyWs).reverse).length
                = 0 := by
              have := congrArg List.length hpre
              rw [List.length_append] at this
              omega
            rw [List.length_eq_zero] at hjlen
            conv_rhs => rw [hpre]
            rw [hjlen, List.append_nil]
          have htk200 : (pyRStrip ((pyStrip (s.drop 3)).take 200) ++ ['.']).take 200 =
              pyRStrip ((pyStrip (s.drop 3)).take 200) :=
            take_append_len _ _ 200 hr200
          rw [htk200, hre1, if_pos (by rw [hp]; decide), hre1]
        · rw [if_neg h201]
    · apply enfLine_fix_of_eq
      rw [enfLine_of_ex s (by rw [hs]; exact he), hs, if_neg he200]
  · apply enfLine_fix_of_eq
    rw [enfLine_of_other s (by rw [hs]; simpa using hb) (by rw [hs]; simpa using hq)
      (by rw [hs]; simpa using ho) (by rw [hs]; simpa using he), hs]

theorem mem_enfLine (line : Str) (c : Char) (h : c ∈ enfLine line) :
    c ∈ line ∨ c = '.' ∨ c = ' ' ∨ c ∈ exTag := by
  have hsub : c ∈ pyStrip ((pyStrip line).drop 3) → c ∈ line := by
    intro hx
    exact mem_pyStrip line c (List.mem_of_mem_drop (mem_pyStrip _ c hx))
  dsimp only [enfLine] at h
  split at h
  · exact Or.inl (mem_pyStrip line c h)
  · split at h
    · split at h
      · exact Or.inl (mem_pyStrip line c (List.mem_of_mem_take h))
      · exact Or.inl (mem_pyStrip line c h)
    · split at h
      · split at h
        · rcases List.mem_append.mp h with h2 | h2
          · exact Or.inl (mem_pyStrip line c (List.mem_of_mem_take h2))
          · split at h2
            · rcases List.mem_append.mp h2 with h3 | h3
              · exact Or.inl (hsub (List.mem_of_mem_take h3))
              · simp at h3
                exact Or.inr (Or.inl h3)
            · exact Or.inl (hsub h2)
        · exact Or.inl (mem_pyStrip line c h)
      · split at h
        · split at h
          · rcases List.mem_append.mp h with h2 | h2
            · rcases List.mem_append.mp h2 with h3 | h3
              · exact Or.inr (Or.inr (Or.inr h3))
              · simp at h3
                exact Or.inr (Or.inr (Or.inl h3))
            · split at h2
              · rcases List.mem_append.mp h2 with h3 | h3
                · exact Or.inl (hsub (List.mem_of_mem_take (mem_pyRStrip _ c h3)))
                · simp at h3
                  exact Or.inr (Or.inl h3)
              · exact Or.inl (hsub (List.mem_of_mem_take h2))
          · exact Or.inl (mem_pyStrip line c h)
        · exact Or.inl (mem_pyStrip line c h)

theorem enfLine_no_nl (line : Str) (hline : ∀ c ∈ line, (c = '\n') = False) :
    ∀ c ∈ enfLine line, (c = '\n') = False := by
  intro c hc
  rcases mem_enfLine line c hc with h | h | h | h
  · exact hline c h
  · subst h; simp
  · subst h; simp
  · simp only [exTag, List.mem_cons, List.not_mem_nil, or_false] at h
    rcases h with h | h | h <;> subst h <;> simp

theorem splitLines_enforce_telegram_limits (t : Str) :
    splitLines (enforce_telegram_limits t) = (splitLines t).map enfLine := by
  unfold enforce_telegram_limits
  apply splitLines_joinLines
  · have := splitOnP_ne_nil (fun c => decide (c = '\n')) t
    intro hmap
    rw [List.map_eq_nil] at hmap
    exact this hmap
  · intro l hl c hc
    rw [List.mem_map] at hl
    rcases hl with ⟨l0, hl0, rfl⟩
    exact enfLine_no_nl l0 (fun d hd => mem_splitLines_no_nl t l0 hl0 d hd) c hc

theorem enfLine_idem (l : Str)
    (hq : qnumMatch (pyStrip l) = true → (pyStrip l).length ≤ 4096) :
    enfLine (enfLine l) = enfLine l := by
  rw [← enfLine_strip_invariant l]
  exact enfLine_idem_strip (pyStrip l) (pyStrip_idem l) hq

theorem enforce_telegram_limits_idem_cond (t : Str)
    (hq : ∀ l ∈ splitLines t, qnumMatch (pyStrip l) = true → (pyStrip l).length ≤ 4096) :
    enforce_telegram_limits (enforce_telegram_limits t) = enforce_telegram_limits t := by
  have h2 : (splitLines (enforce_telegram_limits t)).map enfLine =
      (splitLines t).map enfLine := by
    rw [splitLines_enforce_telegram_limits t, List.map_map]
    apply List.map_congr_left
    intro l hl
    show enfLine (enfLine l) = enfLine l
    exact enfLine_idem l (hq l hl)
  show joinLines ((splitLines (enforce_telegram_limits t)).map enfLine) =
    enforce_telegram_limits t
  rw [h2]
  rfl

/-- A single question line of 4099 characters whose 4096-character cut ends
in a space: the first enforcement pass truncates it to 4096 characters with
a trailing space, the second pass strips that space, so the two passes
disagree. -/
def c5input : Str := '1' :: '.' :: (List.replicate 4093 'a' ++ [' '] ++ ['b', 'b', 'b'])

theorem c5input_no_nl : ∀ c ∈ c5input, (c = '\n') = False := by
  intro c hc
  simp only [c5input, List.mem_cons, List.mem_append, List.mem_replicate] at hc
  rcases hc with h | h | ((⟨_, h⟩ | h) | (h | h | h)) <;> simp_all

theorem c5out1_no_nl : ∀ c ∈ '1' :: '.' :: (List.replicate 4093 'a' ++ [' ']),
    (c = '\n') = False := by
  intro c hc
  simp only [List.mem_cons, List.mem_append, List.mem_replicate] at hc
  rcases hc with h | h | (⟨_, h⟩ | h) <;> simp_all

theorem c5_repl_concat : List.replicate 4093 'a' = List.replicate 4092 'a' ++ ['a'] := by
  have h : (4093 : Nat) = 4092 + 1 := by norm_num
  rw [h, List.replicate_succ']

theorem c5_step1 : enforce_telegram_limits c5input =
    '1' :: '.' :: (List.replicate 4093 'a' ++ [' ']) := by
  rw [enforce_telegram_limits_single c5input c5input_no_nl]
  have hlast : c5input.getLast? = some 'b' := by
    have hsh : c5input =
        ('1' :: '.' :: (List.replicate 4093 'a' ++ [' '] ++ ['b', 'b'])) ++ ['b'] := by
      rw [List.cons_append, List.cons_append, List.append_assoc]
      rw [show ['b', 'b'] ++ ['b'] = ['b', 'b', 'b'] from rfl]
      exact rfl
    rw [hsh, List.getLast?_concat]
  have hstrip : pyStrip c5input = c5input :=
    pyStrip_eq_self_of_ends c5input '1' 'b' rfl (by decide) hlast (by decide)
  have hq : qnumMatch (pyStrip c5input) = true := by
    rw [hstrip]
    exact qnumMatch_of_shape ['1'] _ (by simp) (by decide)
  have hlen : c5input.length = 4099 := by
    show ('1' :: '.' :: (List.replicate 4093 'a' ++ [' '] ++ ['b', 'b', 'b'])).length = 4099
    rw [List.length_cons, List.length_cons, List.length_append, List.length_append,
      List.length_replicate]
    rfl
  have hsplit : c5input =
      ('1' :: '.' :: (List.replicate 4093 'a' ++ [' '])) ++ ['b', 'b', 'b'] := rfl
  have hlen1 : ('1' :: '.' :: (List.replicate 4093 'a' ++ [' '])).length = 4096 := by
    rw [List.length_cons, List.length_cons, List.length_append, List.length_replicate]
    rfl
  rw [enfLine_of_qnum c5input hq, hstrip, if_pos (by omega), hsplit,
    take_append_len _ _ 4096 hlen1]

theorem c5_step2 : enforce_telegram_limits ('1' :: '.' :: (List.replicate 4093 'a' ++ [' '])) =
    '1' :: '.' :: List.replicate 4093 'a' := by
  rw [enforce_telegram_limits_single _ c5out1_no_nl]
  have hstrip : pyStrip ('1' :: '.' :: (List.replicate 4093 'a' ++ [' '])) =
      '1' :: '.' :: List.replicate 4093 'a' := by
    unfold pyStrip
    rw [pyLStrip_eq_self_of_head ('1' :: '.' :: (List.replicate 4093 'a' ++ [' ']))
      '1' rfl (by decide)]
    have hsh : '1' :: '.' :: (List.replicate 4093 'a' ++ [' ']) =
        ('1' :: '.' :: List.replicate 4093 'a') ++ [' '] := by
      rw [List.cons_append, List.cons_append]
    rw [hsh, pyRStrip_append_ws _ ' ' (by decide)]
    apply pyRStrip_eq_self_of_last _ 'a'
    · have hsh2 : '1' :: '.' :: List.replicate 4093 'a' =
          ('1' :: '.' :: List.replicate 4092 'a') ++ ['a'] := by
        rw [c5_repl_concat, List.cons_append, List.cons_append]
      rw [hsh2, List.getLast?_concat]
    · decide
  have hq : qnumMatch (pyStrip ('1' :: '.' :: (List.replicate 4093 'a' ++ [' ']))) = true := by
    rw [hstrip]
    exact qnumMatch_of_shape ['1'] _ (by simp) (by decide)
  have hlen : ('1' :: '.' :: List.replicate 4093 'a').length = 4095 := by
    rw [List.length_cons, List.length_cons, List.length_replicate]
  rw [enfLine_of_qnum _ hq, hstrip, if_neg (by omega)]

/-- C5 counterexample: enforce_telegram_limits is not idempotent.  On a
4099-character question line whose 4096-character cut ends in whitespace,
the first pass emits a 4096-character line with a trailing space and the
second pass strips that space, giving a strictly shorter line. -/
theorem C5_enforce_not_idempotent :
    enforce_telegram_limits (enforce_telegram_limits c5input) ≠
      enforce_telegram_limits c5input := by
  rw [c5_step1, c5_step2]
  intro h
  have hlen := congrArg List.length h
  simp only [List.length_cons, List.length_append, List.length_replicate] at hlen
  omega

theorem digit_not_punct (c : Char) (hc : Char.isDigit c = true) : isPunctChar c = false := by
  cases hq : isPunctChar c
  · rfl
  · unfold isPunctChar at hq
    simp only [Bool.or_eq_true, decide_eq_true_eq] at hq
    rcases hq with (h | h) | h <;> subst h <;> simp at hc

theorem takeWhile_all (p : Char → Bool) (s : Str) (h : ∀ c ∈ s, p c = true) :
    s.takeWhile p = s := by
  induction s with
  | nil => rfl
  | cons c t ih =>
    rw [List.takeWhile_cons, if_pos (h c (by simp))]
    rw [ih (fun d hd => h d (List.mem_cons_of_mem _ hd))]

theorem takeWhile_append_all (p : Char → Bool) (x y : Str) (h : ∀ c ∈ x, p c = true) :
    (x ++ y).takeWhile p = x ++ y.takeWhile p := by
  induction x with
  | nil => rfl
  | cons c t ih =>
    rw [List.cons_append, List.takeWhile_cons, if_pos (h c (by simp))]
    rw [ih (fun d hd => h d (List.mem_cons_of_mem _ hd))]
    rfl

theorem qnumMatch_false_of_head (s : Str) (c : Char) (t : Str) (hs : s = c :: t)
    (hc : Char.isDigit c = false) : qnumMatch s = false := by
  subst hs
  unfold qnumMatch
  rw [List.takeWhile_cons, if_neg (by simp [hc])]
  rfl

theorem qnumMatch_all_digits (s : Str) (h : ∀ c ∈ s, Char.isDigit c = true) :
    qnumMatch s = false := by
  have h2 : s.takeWhile Char.isDigit = s := takeWhile_all _ s h
  unfold qnumMatch
  rw [h2]
  simp [List.drop_length]

theorem exPrefix_false_of_head (s : Str) (c : Char) (t : Str) (hs : s = c :: t)
    (hc : (c = 'E') = False) : pyStartsWith exTag s = false := by
  subst hs
  unfold pyStartsWith exTag
  cases hq : List.isPrefixOf ['E', 'x', ':'] (c :: t)
  · rfl
  · rw [List.isPrefixOf_iff_prefix] at hq
    rcases hq with ⟨u, hu⟩
    rw [List.cons_append] at hu
    injection hu with h1 h2
    rw [← h1] at hc
    simp at hc

theorem optMatch_false_of_head (s : Str) (c : Char) (t : Str) (hs : s = c :: t)
    (hc : ¬ (c = 'a' ∨ c = 'b' ∨ c = 'c' ∨ c = 'd')) : optMatch s = false := by
  subst hs
  cases t with
  | nil => rfl
  | cons b t2 =>
    push_neg at hc
    obtain ⟨h1, h2, h3, h4⟩ := hc
    show ((decide (c = 'a') || decide (c = 'b') || decide (c = 'c') || decide (c = 'd')) &&
        decide (b = ')')) = false
    simp [h1, h2, h3, h4]

theorem digit_ne_optLetter (c : Char) (hc : Char.isDigit c = true) :
    ¬ (c = 'a' ∨ c = 'b' ∨ c = 'c' ∨ c = 'd') := by
  intro h
  rcases h with h | h | h | h <;> subst h <;> simp at hc

theorem digit_ne_E (c : Char) (hc : Char.isDigit c = true) : (c = 'E') = False := by
  simp only [eq_iff_iff, iff_false]
  intro h
  subst h
  simp at hc

theorem splitOnP_eq_cons (p : Char → Bool) (s : Str) :
    ∃ rest, splitOnP p s = (s.takeWhile (fun c => !p c)) :: rest := by
  induction s with
  | nil => exact ⟨[], rfl⟩
  | cons c t ih =>
    by_cases hc : p c = true
    · refine ⟨splitOnP p t, ?_⟩
      conv_lhs => rw [splitOnP]
      rw [if_pos hc, List.takeWhile_cons, if_neg (by simp [hc])]
    · obtain ⟨rest, hrest⟩ := ih
      have hnc : p c = false := by simpa [Bool.not_eq_true] using hc
      refine ⟨rest, ?_⟩
      conv_lhs => rw [splitOnP]
      rw [if_neg hc, hrest, List.takeWhile_cons, if_pos (by simp [hnc])]

theorem pyWords_cons (s : Str) (c : Char) (t : Str) (hs : s = c :: t)
    (hc : isPyWs c = false) :
    ∃ rest, pyWords s = (s.takeWhile (fun d => !isPyWs d)) :: rest := by
  obtain ⟨rest, hrest⟩ := splitOnP_eq_cons isPyWs s
  have htwne : s.takeWhile (fun d => !isPyWs d) ≠ [] := by
    subst hs
    rw [List.takeWhile_cons, if_pos (by simp [hc])]
    simp
  refine ⟨rest.filter (fun w => decide (w ≠ [])), ?_⟩
  unfold pyWords
  rw [hrest, List.filter_cons, if_pos (by simpa using htwne)]

theorem joinSpace_cons2 (w v : Str) (rest : List Str) :
    joinSpace (w :: v :: rest) = w ++ [' '] ++ joinSpace (v :: rest) := by
  simp [joinSpace, List.intercalate, List.intersperse]

theorem joinSpace_single (w : Str) : joinSpace [w] = w := by
  simp [joinSpace, List.intercalate, List.intersperse]

theorem greedyWords_fit (b : Nat) : ∀ (cur : Nat) (ws : List Str),
    greedyWords b cur ws ≠ [] →
    cur + (joinSpace (greedyWords b cur ws)).length + 1 ≤ b := by
  intro cur ws
  induction ws generalizing cur with
  | nil => intro h; simp [greedyWords] at h
  | cons w rest ih =>
    intro h
    by_cases hfit : cur + w.length + 1 ≤ b
    · rw [greedyWords, if_pos hfit]
      cases hrec : greedyWords b (cur + w.length + 1) rest with
      | nil =>
        rw [joinSpace_single]
        omega
      | cons v pw =>
        rw [joinSpace_cons2]
        have h2 := ih (cur + w.length + 1) (by rw [hrec]; simp)
        rw [hrec] at h2
        rw [List.length_append, List.length_append]
        simp only [List.length_singleton] at *
        omega
    · rw [greedyWords, if_neg hfit] at h
      exact absurd rfl h

theorem intercalate_head (sep : Str) (u : Str) (rest : List Str) (hu : u ≠ []) :
    (List.intercalate sep (u :: rest)).head? = u.head? := by
  cases rest with
  | nil => simp [List.intercalate, List.intersperse]
  | cons v r2 =>
    have step : List.intercalate sep (u :: v :: r2) =
        u ++ sep ++ List.intercalate sep (v :: r2) := by
      simp [List.intercalate, List.intersperse]
    rw [step, List.append_assoc]
    cases u with
    | nil => exact absurd rfl hu
    | cons a t2 => simp

theorem getLast_some_of_ne_nil (s : Str) (h : s ≠ []) : ∃ c, s.getLast? = some c := by
  rcases List.eq_nil_or_concat s with hnil | ⟨s0, d, hsd⟩
  · exact absurd hnil h
  · rw [List.concat_eq_append] at hsd
    exact ⟨d, by rw [hsd, List.getLast?_concat]⟩

theorem ne_nil_of_head_some (s : Str) (c : Char) (h : s.head? = some c) : s ≠ [] := by
  intro hnil
  rw [hnil] at h
  cases h

theorem intercalate_getLast (sep : Str) : ∀ (ps : List Str), ps ≠ [] → (∀ u ∈ ps, u ≠ []) →
    ∃ u ∈ ps, (List.intercalate sep ps).getLast? = u.getLast? := by
  intro ps
  induction ps with
  | nil => intro h _; exact absurd rfl h
  | cons u rest ih =>
    intro _ hall
    cases rest with
    | nil =>
      refine ⟨u, by simp, ?_⟩
      simp [List.intercalate, List.intersperse]
    | cons v r2 =>
      obtain ⟨w, hw, hlast⟩ := ih (by simp) (fun x hx => hall x (List.mem_cons_of_mem _ hx))
      have hwne : w ≠ [] := hall w (List.mem_cons_of_mem _ hw)
      obtain ⟨d, hwl⟩ := getLast_some_of_ne_nil w hwne
      have hJ : (List.intercalate sep (v :: r2)).getLast? = some d := by rw [hlast, hwl]
      have step : List.intercalate sep (u :: v :: r2) =
          u ++ sep ++ List.intercalate sep (v :: r2) := by
        simp [List.intercalate, List.intersperse]
      refine ⟨w, List.mem_cons_of_mem _ hw, ?_⟩
      rw [step, List.append_assoc,
        getLast_append_right u _ d (getLast_append_right sep _ d hJ), hwl]

theorem pyStartsWith_shape (pre s : Str) (h : pyStartsWith pre s = true) :
    ∃ t, s = pre ++ t := by
  unfold pyStartsWith at h
  rw [List.isPrefixOf_iff_prefix] at h
  obtain ⟨t, ht⟩ := h
  exact ⟨t, ht.symm⟩

/-- Invariant satisfied by every surviving part of the explanation
sentence-accumulation loop: nonempty, already stripped, and free of the
sentence-terminating punctuation characters. -/
def goodPart (p : Str) : Prop := p ≠ [] ∧ pyStrip p = p ∧ ∀ c ∈ p, isPunctChar c = false

/-- The running-length invariant of the sentence-accumulation loop: each
part fits the 200-character budget counting its closing dot, with the
running length threaded through. -/
def chainFits : Nat → List Str → Prop
  | _, [] => True
  | cur, p :: ps => cur + p.length + 1 ≤ 200 ∧ chainFits (cur + p.length + 1) ps

theorem not_dot_of_not_punct (c : Char) (h : isPunctChar c = false) : (c = '.') = False := by
  simp only [isPunctChar, Bool.or_eq_false_iff, decide_eq_false_iff_not] at h
  simp [h.1.1]

theorem pyEndsWithDot_false_of_punct_free (s : Str) (hne : s ≠ [])
    (hpf : ∀ c ∈ s, isPunctChar c = false) : pyEndsWithDot s = false := by
  obtain ⟨d, hd⟩ := getLast_some_of_ne_nil s hne
  unfold pyEndsWithDot
  rw [hd]
  have h2 := hpf d (List.mem_of_mem_getLast? hd)
  simp [not_dot_of_not_punct d h2]

theorem pyEndsWithPunct_false_of_punct_free (s : Str) (hne : s ≠ [])
    (hpf : ∀ c ∈ s, isPunctChar c = false) : pyEndsWithPunct s = false := by
  obtain ⟨d, hd⟩ := getLast_some_of_ne_nil s hne
  unfold pyEndsWithPunct
  rw [hd]
  exact hpf d (List.mem_of_mem_getLast? hd)

theorem pyWords_elem_ne_nil (s w : Str) (hw : w ∈ pyWords s) : w ≠ [] := by
  unfold pyWords at hw
  have := (List.mem_filter.mp hw).2
  simpa using this

theorem pyWords_elem_no_ws (s w : Str) (hw : w ∈ pyWords s) :
    ∀ c ∈ w, isPyWs c = false := by
  unfold pyWords at hw
  exact mem_splitOnP_no_delim isPyWs s w (List.mem_of_mem_filter hw)

theorem joinSpace_good (pw : List Str) (hne : pw ≠ [])
    (hwne : ∀ w ∈ pw, w ≠ []) (hws : ∀ w ∈ pw, ∀ c ∈ w, isPyWs c = false) :
    joinSpace pw ≠ [] ∧ pyStrip (joinSpace pw) = joinSpace pw := by
  cases pw with
  | nil => exact absurd rfl hne
  | cons w rest =>
    have hw1 : w ≠ [] := hwne w (by simp)
    have hhd : (joinSpace (w :: rest)).head? = w.head? :=
      intercalate_head [' '] w rest hw1
    obtain ⟨a, t, hwat⟩ : ∃ a t, w = a :: t := by
      cases w with
      | nil => exact absurd rfl hw1
      | cons a t => exact ⟨a, t, rfl⟩
    have hha : (joinSpace (w :: rest)).head? = some a := by rw [hhd, hwat]; rfl
    have hjne : joinSpace (w :: rest) ≠ [] := ne_nil_of_head_some _ a hha
    obtain ⟨u, hu, hul⟩ := intercalate_getLast [' '] (w :: rest) (by simp) hwne
    obtain ⟨d, hd⟩ := getLast_some_of_ne_nil u (hwne u hu)
    have hanws : isPyWs a = false := hws w (by simp) a (by rw [hwat]; simp)
    have hdnws : isPyWs d = false := hws u hu d (List.mem_of_mem_getLast? hd)
    refine ⟨hjne, pyStrip_eq_self_of_ends _ a d hha hanws ?_ hdnws⟩
    show (joinSpace (w :: rest)).getLast? = some d
    unfold joinSpace
    rw [hul, hd]

theorem mem_joinSpace_punct_free (pw : List Str)
    (h : ∀ w ∈ pw, ∀ c ∈ w, isPunctChar c = false) :
    ∀ c ∈ joinSpace pw, isPunctChar c = false := by
  intro c hc
  rcases mem_joinSpace pw c hc with h2 | ⟨w, hw, hcw⟩
  · subst h2; rfl
  · exact h w hw c hcw

theorem exAccum_cons_skip (cur : Nat) (s : Str) (rest : List Str) (h1 : pyStrip s = []) :
    exAccum cur (s :: rest) = exAccum cur rest := by
  rw [exAccum]
  simp [h1]

theorem exAccum_cons_shape (cur : Nat) (s : Str) (rest : List Str)
    (h1 : pyStrip s ≠ []) (hdot : pyEndsWithDot (pyStrip s) = false) :
    exAccum cur (s :: rest) =
      if cur + (pyStrip s).length + 1 ≤ 200 then
        pyStrip s :: exAccum (cur + (pyStrip s).length + 1) rest
      else if greedyWords 200 cur (pyWords (pyStrip s)) ≠ [] then
        [joinSpace (greedyWords 200 cur (pyWords (pyStrip s)))]
      else [] := by
  rw [exAccum]
  simp only [h1, hdot, Bool.false_eq_true, not_false_eq_true, if_true, ite_true,
    ite_false, if_false, List.length_append, List.length_singleton]
  simp only [← Nat.add_assoc]

theorem exAccum_good : ∀ (ss : List Str) (cur : Nat),
    (∀ s ∈ ss, ∀ c ∈ s, isPunctChar c = false) →
    (∀ p ∈ exAccum cur ss, goodPart p) ∧ chainFits cur (exAccum cur ss) := by
  intro ss
  induction ss with
  | nil =>
    intro cur _
    exact ⟨by intro p hp; simp [exAccum] at hp, trivial⟩
  | cons s rest ih =>
    intro cur hpf
    have hpfs : ∀ c ∈ s, isPunctChar c = false := hpf s (by simp)
    have hpfrest : ∀ s2 ∈ rest, ∀ c ∈ s2, isPunctChar c = false :=
      fun s2 hs2 => hpf s2 (List.mem_cons_of_mem _ hs2)
    have hs1pf : ∀ c ∈ pyStrip s, isPunctChar c = false :=
      fun c hc => hpfs c (mem_pyStrip s c hc)
    by_cases h1 : pyStrip s = []
    · rw [exAccum_cons_skip cur s rest h1]
      exact ih cur hpfrest
    · have hdot : pyEndsWithDot (pyStrip s) = false :=
        pyEndsWithDot_false_of_punct_free _ h1 hs1pf
      rw [exAccum_cons_shape cur s rest h1 hdot]
      by_cases hfit : cur + (pyStrip s).length + 1 ≤ 200
      · rw [if_pos hfit]
        obtain ⟨ihg, ihc⟩ := ih (cur + (pyStrip s).length + 1) hpfrest
        constructor
        · intro p hp
          rcases List.mem_cons.mp hp with h2 | h2
          · subst h2
            exact ⟨h1, pyStrip_idem s, hs1pf⟩
          · exact ihg p h2
        · exact ⟨hfit, ihc⟩
      · rw [if_neg hfit]
        by_cases hpw : greedyWords 200 cur (pyWords (pyStrip s)) ≠ []
        · rw [if_pos hpw]
          have hsub : ∀ w ∈ greedyWords 200 cur (pyWords (pyStrip s)),
              w ∈ pyWords (pyStrip s) :=
            fun w hw => mem_greedyWords 200 cur _ w hw
          have hwne : ∀ w ∈ greedyWords 200 cur (pyWords (pyStrip s)), w ≠ [] :=
            fun w hw => pyWords_elem_ne_nil _ w (hsub w hw)
          have hws : ∀ w ∈ greedyWords 200 cur (pyWords (pyStrip s)),
              ∀ c ∈ w, isPyWs c = false :=
            fun w hw => pyWords_elem_no_ws _ w (hsub w hw)
          obtain ⟨hjne, hjstrip⟩ := joinSpace_good _ hpw hwne hws
          have hjpf : ∀ c ∈ joinSpace (greedyWords 200 cur (pyWords (pyStrip s))),
              isPunctChar c = false := by
            apply mem_joinSpace_punct_free
            intro w hw c hc
            exact hs1pf c (mem_pyWords _ w (hsub w hw) c hc)
          have hfit2 := greedyWords_fit 200 cur (pyWords (pyStrip s)) hpw
          constructor
          · intro p hp
            rw [List.mem_singleton] at hp
            subst hp
            exact ⟨hjne, hjstrip, hjpf⟩
          · exact ⟨by omega, trivial⟩
        · rw [if_neg hpw]
          exact ⟨by intro p hp; simp at hp, trivial⟩

theorem exAccum_congr : ∀ (ss1 ss2 : List Str), ss1.map pyStrip = ss2.map pyStrip →
    ∀ cur, exAccum cur ss1 = exAccum cur ss2 := by
  intro ss1
  induction ss1 with
  | nil =>
    intro ss2 h cur
    cases ss2 with
    | nil => rfl
    | cons a b => simp at h
  | cons s r ih =>
    intro ss2 h cur
    cases ss2 with
    | nil => simp at h
    | cons s2 r2 =>
      simp only [List.map_cons, List.cons.injEq] at h
      obtain ⟨hs, hr⟩ := h
      rw [exAccum, exAccum, hs]
      simp only [ih r2 hr]

theorem exAccum_reparse : ∀ (ps : List Str) (cur : Nat),
    chainFits cur ps → (∀ p ∈ ps, goodPart p) →
    exAccum cur (ps ++ [[]]) = ps := by
  intro ps
  induction ps with
  | nil =>
    intro cur _ _
    show exAccum cur [[]] = []
    rfl
  | cons p rest ih =>
    intro cur hchain hgood
    obtain ⟨hfit, hchainrest⟩ := hchain
    obtain ⟨hpne, hpstrip, hppf⟩ := hgood p (by simp)
    have hdot : pyEndsWithDot (pyStrip p) = false := by
      rw [hpstrip]
      exact pyEndsWithDot_false_of_punct_free p hpne hppf
    rw [List.cons_append, exAccum_cons_shape cur p (rest ++ [[]]) (by rw [hpstrip]; exact hpne) hdot,
      hpstrip, if_pos hfit, ih (cur + p.length + 1) hchainrest
        (fun q hq => hgood q (List.mem_cons_of_mem _ hq))]

theorem splitOnP_cons_not (p : Char → Bool) (c : Char) (s : Str) (hc : p c = false) :
    splitOnP p (c :: s) = (c :: (splitOnP p s).headI) :: (splitOnP p s).tail := by
  cases h : splitOnP p s with
  | nil => exact absurd h (splitOnP_ne_nil p s)
  | cons a t =>
    conv_lhs => rw [splitOnP]
    rw [if_neg (by simp [hc]), h]
    simp

theorem splitPunct_joinparts : ∀ (ps : List Str), ps ≠ [] →
    (∀ p ∈ ps, ∀ c ∈ p, isPunctChar c = false) →
    splitOnP isPunctChar (joinDotSpace ps ++ ['.']) =
      ps.headI :: (ps.tail.map (fun p => ' ' :: p)) ++ [[]] := by
  intro ps
  induction ps with
  | nil => intro h _; exact absurd rfl h
  | cons p rest ih =>
    intro _ hpf
    cases rest with
    | nil =>
      have h1 : joinDotSpace [p] = p := by
        simp [joinDotSpace, List.intercalate, List.intersperse]
      rw [h1, splitOnP_append_delim isPunctChar '.' (by decide) p _ (hpf p (by simp))]
      rfl
    | cons q r2 =>
      have hstep : joinDotSpace (p :: q :: r2) =
          p ++ ['.', ' '] ++ joinDotSpace (q :: r2) := by
        simp [joinDotSpace, List.intercalate, List.intersperse]
      have hihres := ih (by simp) (fun x hx => hpf x (List.mem_cons_of_mem _ hx))
      have hshape : joinDotSpace (p :: q :: r2) ++ ['.'] =
          p ++ '.' :: (' ' :: (joinDotSpace (q :: r2) ++ ['.'])) := by
        rw [hstep]
        simp
      rw [hshape, splitOnP_append_delim isPunctChar '.' (by decide) p _ (hpf p (by simp)),
        splitOnP_cons_not isPunctChar ' ' _ (by decide), hihres]
      simp

theorem optLine_fix_of_eq (l : Str) (h : optimizeLine l = l) :
    optimizeLine (optimizeLine l) = optimizeLine l := by
  rw [h]
  exact h

theorem optLine_of_qnum (l : Str) (hq : qnumMatch l = true) :
    optimizeLine l = if l.length > 4000 then optQuestionLine l else l := by
  obtain ⟨ds, r, hsr, hne, hds⟩ := qnumMatch_shape l hq
  have hbl : (pyStrip l).isEmpty = false := by
    cases hd : ds with
    | nil => exact absurd hd hne
    | cons d0 ds' =>
      apply pyStrip_isEmpty_false_of_mem l d0 _ (digit_not_ws d0 (hds d0 (by rw [hd]; simp)))
      rw [hsr, hd]
      simp
  dsimp only [optimizeLine]
  rw [hbl, hq]
  simp

theorem optLine_of_ex (l : Str) (hq : qnumMatch l = false) (he : pyStartsWith exTag l = true) :
    optimizeLine l = optExLine l := by
  obtain ⟨t, ht⟩ := pyStartsWith_shape exTag l he
  have hbl : (pyStrip l).isEmpty = false := by
    apply pyStrip_isEmpty_false_of_mem l 'E' _ (by decide)
    rw [ht]
    simp [exTag]
  dsimp only [optimizeLine]
  rw [hbl, hq, he]
  simp

theorem optLine_of_opt (l : Str) (hq : qnumMatch l = false) (he : pyStartsWith exTag l = false)
    (ho : optMatch l = true) : optimizeLine l = optOptionLine l := by
  obtain ⟨a, r, hsr, ha, hanws⟩ := optMatch_shape2 l ho
  have hbl : (pyStrip l).isEmpty = false := by
    apply pyStrip_isEmpty_false_of_mem l a _ hanws
    rw [hsr]
    simp
  dsimp only [optimizeLine]
  rw [hbl, hq, he, ho]
  simp

theorem optLine_other (l : Str) (hq : qnumMatch l = false) (he : pyStartsWith exTag l = false)
    (ho : optMatch l = false) : optimizeLine l = l := by
  dsimp only [optimizeLine]
  rw [hq, he, ho]
  by_cases hbl : (pyStrip l).isEmpty = true
  · rw [hbl]
    simp
  · rw [Bool.not_eq_true] at hbl
    rw [hbl]
    simp

theorem optQuestionLine_shape (l ds r : Str) (hsr : l = ds ++ '.' :: r) (hne : ds ≠ [])
    (hds : ∀ c ∈ ds, Char.isDigit c = true) :
    optQuestionLine l =
      if ds.length ≤ 4000 then ds ++ ['.']
      else if greedyWords 4000 0 (pyWords l) ≠ [] then
        joinSpace (greedyWords 4000 0 (pyWords l))
      else l.take 4000 := by
  have hdspf : ∀ c ∈ ds, isPunctChar c = false := fun c hc => digit_not_punct c (hds c hc)
  have hsplit : splitOnP isPunctChar l = ds :: splitOnP isPunctChar r := by
    rw [hsr]
    exact splitOnP_append_delim isPunctChar '.' (by decide) ds r hdspf
  have hstrip : pyStrip ds = ds := by
    obtain ⟨dl, hdl⟩ := getLast_some_of_ne_nil ds hne
    obtain ⟨d0, ds', hd⟩ : ∃ d0 ds', ds = d0 :: ds' := by
      cases ds with
      | nil => exact absurd rfl hne
      | cons a b => exact ⟨a, b, rfl⟩
    exact pyStrip_eq_self_of_ends ds d0 dl (by rw [hd]; rfl)
      (digit_not_ws d0 (hds d0 (by rw [hd]; simp))) hdl
      (digit_not_ws dl (hds dl (List.mem_of_mem_getLast? hdl)))
  have hlen2 : (ds :: splitOnP isPunctChar r).length > 1 := by
    rw [List.length_cons]
    have := splitOnP_ne_nil isPunctChar r
    have h2 : (splitOnP isPunctChar r).length > 0 := List.length_pos.mpr this
    omega
  unfold optQuestionLine
  rw [hsplit, if_pos hlen2]
  simp only [List.headI]
  rw [hstrip, if_congr (and_iff_right hne) rfl rfl]

theorem optQuestionLine_fix (l : Str) (hq : qnumMatch l = true) :
    optimizeLine (optQuestionLine l) = optQuestionLine l := by
  obtain ⟨ds, r, hsr, hne, hds⟩ := qnumMatch_shape l hq
  rw [optQuestionLine_shape l ds r hsr hne hds]
  by_cases h4000 : ds.length ≤ 4000
  · rw [if_pos h4000]
    have hqout : qnumMatch (ds ++ ['.']) = true := qnumMatch_of_shape ds [] hne hds
    rw [optLine_of_qnum _ hqout]
    have hlenout : (ds ++ ['.']).length = ds.length + 1 := by
      rw [List.length_append]
      rfl
    by_cases hbig : (ds ++ ['.']).length > 4000
    · rw [if_pos hbig, optQuestionLine_shape (ds ++ ['.']) ds [] rfl hne hds, if_pos h4000]
    · rw [if_neg hbig]
  · rw [if_neg h4000]
    cases hd : ds with
    | nil => exact absurd hd hne
    | cons d0 ds' =>
      have hd0dig : Char.isDigit d0 = true := hds d0 (by rw [hd]; simp)
      have hd0nws : isPyWs d0 = false := digit_not_ws d0 hd0dig
      have hlhead : l = d0 :: (ds' ++ '.' :: r) := by
        rw [hsr, hd]
        rfl
      obtain ⟨wrest, hwrest⟩ := pyWords_cons l d0 _ hlhead hd0nws
      have htw : l.takeWhile (fun d => !isPyWs d) =
          ds ++ '.' :: (r.takeWhile (fun d => !isPyWs d)) := by
        rw [hsr, takeWhile_append_all _ ds _
          (fun c hc => by simp [digit_not_ws c (hds c hc)]),
          List.takeWhile_cons, if_pos (by decide)]
      have hw1len : (l.takeWhile (fun d => !isPyWs d)).length = ds.length + 1 +
          (r.takeWhile (fun d => !isPyWs d)).length := by
        rw [htw, List.length_append, List.length_cons]
        omega
      have hgreedy : greedyWords 4000 0 (pyWords l) = [] := by
        rw [hwrest, greedyWords, if_neg (by omega)]
      rw [hgreedy, if_neg (by simp)]
      have htake : l.take 4000 = ds.take 4000 := by
        rw [hsr, List.take_append_of_le_length (by omega)]
      rw [htake]
      have hmem : ∀ c ∈ ds.take 4000, Char.isDigit c = true :=
        fun c hc => hds c (List.mem_of_mem_take hc)
      have hqf : qnumMatch (ds.take 4000) = false := qnumMatch_all_digits _ hmem
      have hshape : ds.take 4000 = d0 :: ds'.take 3999 := by
        rw [hd]
        rfl
      exact optLine_other _ hqf
        (exPrefix_false_of_head _ d0 _ hshape (digit_ne_E d0 hd0dig))
        (optMatch_false_of_head _ d0 _ hshape (digit_ne_optLetter d0 hd0dig))

theorem pyRFindSpace_le (s : Str) (k : Nat) (h : pyRFindSpace s = some k) : k ≤ s.length := by
  unfold pyRFindSpace at h
  cases hf : s.reverse.findIdx? (fun c => c = ' ') with
  | none => rw [hf] at h; cases h
  | some i =>
    rw [hf] at h
    injection h with h2
    omega

theorem head_append_left (x y : Str) (c : Char) (h : x.head? = some c) :
    (x ++ y).head? = some c := by
  cases x with
  | nil => cases h
  | cons a t =>
    simp only [List.head?_cons, Option.some.injEq] at h
    simp [h]

theorem optLine_exTag_small (z : Str) (hz : (pyStrip z).length ≤ 200) :
    optimizeLine (exTag ++ [' '] ++ z) = exTag ++ [' '] ++ z := by
  have hq : qnumMatch (exTag ++ [' '] ++ z) = false :=
    qnumMatch_false_of_head _ 'E' _ rfl (by decide)
  have he : pyStartsWith exTag (exTag ++ [' '] ++ z) = true := by
    rw [List.append_assoc]
    exact pyStartsWith_exTag_append _
  rw [optLine_of_ex _ hq he]
  have hd3 : (exTag ++ [' '] ++ z).drop 3 = ' ' :: z := by
    rw [List.append_assoc]
    exact drop_append_len _ _ 3 rfl
  unfold optExLine
  rw [hd3, pyStrip_cons_ws ' ' z (by decide), if_neg (by omega)]

theorem optExLine_long_parts (l E : Str) (hE : pyStrip (l.drop 3) = E)
    (he200 : E.length > 200)
    (hparts : exAccum 0 (splitOnP isPunctChar E) ≠ [])
    (hoe_ne : joinDotSpace (exAccum 0 (splitOnP isPunctChar E)) ≠ [])
    (hoe_np : pyEndsWithPunct (joinDotSpace (exAccum 0 (splitOnP isPunctChar E))) = false) :
    optExLine l =
      exTag ++ [' '] ++ (joinDotSpace (exAccum 0 (splitOnP isPunctChar E)) ++ ['.']) := by
  unfold optExLine
  rw [hE, if_pos he200, if_pos hparts]
  dsimp only
  rw [if_pos ⟨hoe_ne, by simp [hoe_np]⟩]

theorem optExLine_long_noparts (l E : Str) (hE : pyStrip (l.drop 3) = E)
    (he200 : E.length > 200)
    (hparts : exAccum 0 (splitOnP isPunctChar E) = []) :
    ∃ z, optExLine l = exTag ++ [' '] ++ z ∧ (pyStrip z).length ≤ 200 := by
  unfold optExLine
  rw [hE, if_pos he200, if_neg (by simp [hparts]), if_pos he200]
  cases hrf : pyRFindSpace (E.take 200) with
  | some k =>
    have hk200 : k ≤ 200 := by
      have := pyRFindSpace_le _ k hrf
      have h2 : (E.take 200).length ≤ 200 := by
        rw [List.length_take]
        omega
      omega
    by_cases hk : k > 150
    · refine ⟨E.take k, ?_, ?_⟩
      · show (if k > 150 then exTag ++ [' '] ++ E.take k else exTag ++ [' '] ++ E.take 200) = _
        rw [if_pos hk]
      · have h1 := pyStrip_length_le (E.take k)
        have h2 : (E.take k).length ≤ k := by
          rw [List.length_take]
          omega
        omega
    · refine ⟨E.take 200, ?_, ?_⟩
      · show (if k > 150 then exTag ++ [' '] ++ E.take k else exTag ++ [' '] ++ E.take 200) = _
        rw [if_neg hk]
      · have h1 := pyStrip_length_le (E.take 200)
        have h2 : (E.take 200).length ≤ 200 := by
          rw [List.length_take]
          omega
        omega
  | none =>
    refine ⟨E.take 200, rfl, ?_⟩
    have h1 := pyStrip_length_le (E.take 200)
    have h2 : (E.take 200).length ≤ 200 := by
      rw [List.length_take]
      omega
    omega

theorem joinDotSpace_facts (ps : List Str) (p0 : Str) (ptail : List Str) (hps : ps = p0 :: ptail)
    (hgood : ∀ p ∈ ps, goodPart p) :
    joinDotSpace ps ≠ [] ∧ pyEndsWithPunct (joinDotSpace ps) = false ∧
    pyStrip (joinDotSpace ps ++ ['.']) = joinDotSpace ps ++ ['.'] := by
  have hp0 := hgood p0 (by rw [hps]; simp)
  obtain ⟨hp0ne, hp0strip, hp0pf⟩ := hp0
  obtain ⟨c, t, hct⟩ : ∃ c t, p0 = c :: t := by
    cases p0 with
    | nil => exact absurd rfl hp0ne
    | cons a b => exact ⟨a, b, rfl⟩
  have hcnws : isPyWs c = false := pyStrip_head_not p0 c t (by rw [hp0strip]; exact hct)
  have hhd : (joinDotSpace ps).head? = some c := by
    rw [hps]
    show (List.intercalate ['.', ' '] (p0 :: ptail)).head? = some c
    rw [intercalate_head ['.', ' '] p0 ptail hp0ne, hct]
    rfl
  have hne : joinDotSpace ps ≠ [] := ne_nil_of_head_some _ c hhd
  obtain ⟨u, hu, hul⟩ := intercalate_getLast ['.', ' '] ps (by rw [hps]; simp)
    (fun w hw => (hgood w hw).1)
  obtain ⟨d, hd⟩ := getLast_some_of_ne_nil u (hgood u hu).1
  have hdpf : isPunctChar d = false := (hgood u hu).2.2 d (List.mem_of_mem_getLast? hd)
  have hnp : pyEndsWithPunct (joinDotSpace ps) = false := by
    unfold pyEndsWithPunct joinDotSpace
    rw [hul, hd]
    exact hdpf
  refine ⟨hne, hnp, ?_⟩
  apply pyStrip_eq_self_of_ends _ c '.'
  · exact head_append_left _ _ c hhd
  · exact hcnws
  · rw [List.getLast?_concat]
  · decide

theorem exAccum_roundtrip (ps : List Str) (hne : ps ≠ [])
    (hgood : ∀ p ∈ ps, goodPart p) (hchain : chainFits 0 ps) :
    exAccum 0 (splitOnP isPunctChar (joinDotSpace ps ++ ['.'])) = ps := by
  have hpf : ∀ p ∈ ps, ∀ c ∈ p, isPunctChar c = false := fun p hp => (hgood p hp).2.2
  rw [splitPunct_joinparts ps hne hpf]
  obtain ⟨p0, ptail, hps⟩ : ∃ p0 ptail, ps = p0 :: ptail := by
    cases ps with
    | nil => exact absurd rfl hne
    | cons a b => exact ⟨a, b, rfl⟩
  subst hps
  show exAccum 0 (p0 :: (ptail.map (fun p => ' ' :: p) ++ [[]])) = p0 :: ptail
  have hmap : (ptail.map (fun p => ' ' :: p)).map pyStrip = ptail.map pyStrip := by
    rw [List.map_map]
    apply List.map_congr_left
    intro p hp
    show pyStrip (' ' :: p) = pyStrip p
    exact pyStrip_cons_ws ' ' p (by decide)
  have hcongr : exAccum 0 (p0 :: (ptail.map (fun p => ' ' :: p) ++ [[]])) =
      exAccum 0 (p0 :: (ptail ++ [[]])) := by
    apply exAccum_congr
    rw [List.map_cons, List.map_cons, List.map_append, List.map_append, hmap]
  rw [hcongr]
  show exAccum 0 ((p0 :: ptail) ++ [[]]) = p0 :: ptail
  exact exAccum_reparse (p0 :: ptail) 0 hchain hgood

theorem optExLine_fix (l : Str) (he200 : (pyStrip (l.drop 3)).length > 200) :
    optimizeLine (optExLine l) = optExLine l := by
  obtain ⟨hgood, hchain⟩ := exAccum_good (splitOnP isPunctChar (pyStrip (l.drop 3))) 0
    (mem_splitOnP_no_delim isPunctChar _)
  by_cases hparts : exAccum 0 (splitOnP isPunctChar (pyStrip (l.drop 3))) = []
  · obtain ⟨z, hout, hz⟩ := optExLine_long_noparts l _ rfl he200 hparts
    rw [hout]
    exact optLine_exTag_small z hz
  · obtain ⟨p0, ptail, hps⟩ : ∃ p0 ptail,
        exAccum 0 (splitOnP isPunctChar (pyStrip (l.drop 3))) = p0 :: ptail := by
      cases hx : exAccum 0 (splitOnP isPunctChar (pyStrip (l.drop 3))) with
      | nil => exact absurd hx hparts
      | cons a b => exact ⟨a, b, rfl⟩
    obtain ⟨hoene, hoenp, hoestrip⟩ := joinDotSpace_facts _ p0 ptail hps hgood
    rw [optExLine_long_parts l _ rfl he200 hparts hoene hoenp]
    by_cases hoelen :
        (joinDotSpace (exAccum 0 (splitOnP isPunctChar (pyStrip (l.drop 3))))).length + 1 ≤ 200
    · apply optLine_exTag_small
      rw [hoestrip, List.length_append]
      simpa using hoelen
    · -- the re-parsed output reproduces itself
      have hq2 : qnumMatch (exTag ++ [' '] ++
          (joinDotSpace (exAccum 0 (splitOnP isPunctChar (pyStrip (l.drop 3)))) ++ ['.'])) =
          false := qnumMatch_false_of_head _ 'E' _ rfl (by decide)
      have he2 : pyStartsWith exTag (exTag ++ [' '] ++
          (joinDotSpace (exAccum 0 (splitOnP isPunctChar (pyStrip (l.drop 3)))) ++ ['.'])) =
          true := by
        rw [List.append_assoc]
        exact pyStartsWith_exTag_append _
      rw [optLine_of_ex _ hq2 he2]
      have hd3 : (exTag ++ [' '] ++
          (joinDotSpace (exAccum 0 (splitOnP isPunctChar (pyStrip (l.drop 3)))) ++ ['.'])).drop 3 =
          ' ' :: (joinDotSpace (exAccum 0 (splitOnP isPunctChar (pyStrip (l.drop 3)))) ++ ['.']) := by
        rw [List.append_assoc]
        exact drop_append_len _ _ 3 rfl
      have hstrip2 : pyStrip ((exTag ++ [' '] ++
          (joinDotSpace (exAccum 0 (splitOnP isPunctChar (pyStrip (l.drop 3)))) ++ ['.'])).drop 3) =
          joinDotSpace (exAccum 0 (splitOnP isPunctChar (pyStrip (l.drop 3)))) ++ ['.'] := by
        rw [hd3, pyStrip_cons_ws ' ' _ (by decide), hoestrip]
      have hlen2 : (joinDotSpace (exAccum 0 (splitOnP isPunctChar (pyStrip (l.drop 3)))) ++
          ['.']).length > 200 := by
        rw [List.length_append]
        simp only [List.length_singleton]
        omega
      have hround : exAccum 0 (splitOnP isPunctChar
          (joinDotSpace (exAccum 0 (splitOnP isPunctChar (pyStrip (l.drop 3)))) ++ ['.'])) =
          exAccum 0 (splitOnP isPunctChar (pyStrip (l.drop 3))) :=
        exAccum_roundtrip _ hparts hgood hchain
      rw [optExLine_long_parts _ _ hstrip2 hlen2 (by rw [hround]; exact hparts)
        (by rw [hround]; exact hoene) (by rw [hround]; exact hoenp), hround]

theorem optLine_opt_small (l z : Str) (ho : optMatch l = true) (hl3 : 3 ≤ l.length)
    (hz : (pyStrip z).length ≤ 100) :
    optimizeLine (l.take 3 ++ z) = l.take 3 ++ z := by
  obtain ⟨a, r, hsr, ha, hanws⟩ := optMatch_shape2 l ho
  have htk3 : l.take 3 = a :: ')' :: r.take 1 := by
    rw [hsr]
    rfl
  have hshape : l.take 3 ++ z = a :: ')' :: (r.take 1 ++ z) := by
    rw [htk3]
    rfl
  have handig : Char.isDigit a = false := by
    rcases ha with h | h | h | h <;> subst h <;> decide
  have hq : qnumMatch (l.take 3 ++ z) = false := qnumMatch_false_of_head _ a _ hshape handig
  have hane : (a = 'E') = False := by
    rcases ha with h | h | h | h <;> subst h <;> simp
  have he : pyStartsWith exTag (l.take 3 ++ z) = false := exPrefix_false_of_head _ a _ hshape hane
  have ho2 : optMatch (l.take 3 ++ z) = true := by
    rw [hshape]
    exact optMatch_cons a _ ha
  rw [optLine_of_opt _ hq he ho2]
  unfold optOptionLine
  have hlen3 : (l.take 3).length = 3 := by
    rw [List.length_take]
    omega
  rw [drop_append_len _ _ 3 hlen3, if_neg (by omega)]

theorem optOptionLine_fix (l : Str) (ho : optMatch l = true)
    (hot : (pyStrip (l.drop 3)).length > 100) :
    optimizeLine (optOptionLine l) = optOptionLine l := by
  have hl3 : 3 ≤ l.length := by
    have h1 := pyStrip_length_le (l.drop 3)
    have h2 : (l.drop 3).length = l.length - 3 := List.length_drop 3 l
    omega
  unfold optOptionLine
  rw [if_pos hot]
  dsimp only
  by_cases hsh : greedyWords 100 0 (pyWords (pyStrip (l.drop 3))) ≠ []
  · rw [if_pos hsh]
    apply optLine_opt_small l _ ho hl3
    have hfit := greedyWords_fit 100 0 (pyWords (pyStrip (l.drop 3))) hsh
    have h1 := pyStrip_length_le (joinSpace (greedyWords 100 0 (pyWords (pyStrip (l.drop 3)))))
    omega
  · rw [if_neg hsh]
    apply optLine_opt_small l _ ho hl3
    have h1 := pyStrip_length_le ((pyStrip (l.drop 3)).take 100)
    have h2 : ((pyStrip (l.drop 3)).take 100).length ≤ 100 := by
      rw [List.length_take]
      omega
    omega

theorem optimizeLine_idem (l : Str) : optimizeLine (optimizeLine l) = optimizeLine l := by
  by_cases hq : qnumMatch l = true
  · have h1 : optimizeLine l = if l.length > 4000 then optQuestionLine l else l :=
      optLine_of_qnum l hq
    by_cases hlen : l.length > 4000
    · rw [h1, if_pos hlen]
      exact optQuestionLine_fix l hq
    · apply optLine_fix_of_eq
      rw [h1, if_neg hlen]
  by_cases he : pyStartsWith exTag l = true
  · have h1 : optimizeLine l = optExLine l := optLine_of_ex l (by simpa using hq) he
    by_cases he200 : (pyStrip (l.drop 3)).length > 200
    · rw [h1]
      exact optExLine_fix l he200
    · apply optLine_fix_of_eq
      rw [h1]
      unfold optExLine
      rw [if_neg he200]
  by_cases ho : optMatch l = true
  · have h1 : optimizeLine l = optOptionLine l :=
      optLine_of_opt l (by simpa using hq) (by simpa using he) ho
    by_cases hot : (pyStrip (l.drop 3)).length > 100
    · rw [h1]
      exact optOptionLine_fix l ho hot
    · apply optLine_fix_of_eq
      rw [h1]
      unfold optOptionLine
      rw [if_neg hot]
  · apply optLine_fix_of_eq
    exact optLine_other l (by simpa using hq) (by simpa using he) (by simpa using ho)

theorem optimize_for_poll_idem (t : Str) :
    optimize_for_poll (optimize_for_poll t) = optimize_for_poll t := by
  have h2 : (splitLines (optimize_for_poll t)).map optimizeLine =
      (splitLines t).map optimizeLine := by
    rw [splitLines_optimize_for_poll t, List.map_map]
    apply List.map_congr_left
    intro l hl
    show optimizeLine (optimizeLine l) = optimizeLine l
    exact optimizeLine_idem l
  show joinLines ((splitLines (optimize_for_poll t)).map optimizeLine) = optimize_for_poll t
  rw [h2]
  rfl

/-- A small well-formed question text used to instantiate the idempotence
theorem at a concrete input. -/
def c5small : Str := ['1', '.', ' ', 'Q']

/-- C5: the truncation pass is idempotent for optimize_for_poll on every
text; enforce_telegram_limits, however, is idempotent only on texts whose
stripped question lines stay within 4096 characters: a longer question
line whose 4096-character cut ends in whitespace is stripped further by
the second pass (see the counterexample), so the unconditional claim fails
for enforce_telegram_limits and holds under the stated bound. -/
theorem C5_truncation_idempotence :
    (∀ t : Str, optimize_for_poll (optimize_for_poll t) = optimize_for_poll t) ∧
    (∀ t : Str,
      (∀ l ∈ splitLines t, qnumMatch (pyStrip l) = true → (pyStrip l).length ≤ 4096) →
      enforce_telegram_limits (enforce_telegram_limits t) = enforce_telegram_limits t) :=
  ⟨optimize_for_poll_idem, enforce_telegram_limits_idem_cond⟩

theorem C5_truncation_idempotence_witness :
    optimize_for_poll (optimize_for_poll c5small) = optimize_for_poll c5small ∧
    enforce_telegram_limits (enforce_telegram_limits c5small) =
      enforce_telegram_limits c5small :=
  ⟨C5_truncation_idempotence.1 c5small, C5_truncation_idempotence.2 c5small (by decide)⟩
